import Mathlib

/-!
Verification of the PFER repository's round-trip text codec, exclusion
matcher, packer walk and reconstructor against its specification.

The program is embedded shallowly: the regular expressions
`CODE_BLOCK_PATTERN`, `PATH_COMMENT_PATTERN` (`main.py`) and
`FIRST_LINE_PATH_COMMENT_PATTERN` (`constants.py`) are modelled as
deterministic scanners over `List Char` that reproduce the Python `re`
backtracking behaviour of those concrete patterns; `str.strip`,
`str.split`, `os.path.join`/`normpath` (POSIX flavour), `fnmatch` and the
`dict` insertion-order semantics are modelled directly.  Character classes
`\s` and `\w` are modelled over their ASCII parts, which covers every
document the program's own formats emit.
-/

namespace PFER

/-- ASCII part of Python's regex class `\s` (also the set used by
`str.strip()` with no argument). -/
def pyWs (c : Char) : Bool :=
  c = ' ' || c = '\t' || c = '\n' || c = '\r' || c = '\x0b' || c = '\x0c'

/-- ASCII part of Python's regex class `\w` (letters, digits, underscore). -/
def wordChar (c : Char) : Bool :=
  c.isAlphanum || c = '_'

/-- The characters of the bracket expression `[#|//|;]` inside
`PATH_COMMENT_PATTERN` in `main.py` (a character class containing
`#`, `|`, `/`, `;`). -/
def classChar (c : Char) : Bool :=
  c = '#' || c = '|' || c = '/' || c = ';'

/-- Characters matched by `INVALID_PATH_CHARS_PATTERN` in `main.py` and
`constants.py`. -/
def invalidPathChar (c : Char) : Bool :=
  c = '<' || c = '>' || c = ':' || c = '"' || c = '|' || c = '?' || c = '*'

/-- Conversion from a string literal to the character list the model works
on. -/
def chars (s : String) : List Char := s.data

/-- `leadsWith pat s` holds when `s` starts with `pat`. -/
def leadsWith : List Char → List Char → Bool
  | [], _ => true
  | _ :: _, [] => false
  | p :: ps, c :: cs => p = c && leadsWith ps cs

/-- `containsSeq pat s` holds when `pat` occurs contiguously inside `s`
(Python's `pat in s`). -/
def containsSeq (pat : List Char) : List Char → Bool
  | [] => leadsWith pat []
  | c :: t => leadsWith pat (c :: t) || containsSeq pat t

/-- Python `str.strip()` on the left. -/
def stripLeft (s : List Char) : List Char := s.dropWhile pyWs

/-- Python `str.strip()`: drop leading and trailing whitespace. -/
def pyStrip (s : List Char) : List Char :=
  ((s.dropWhile pyWs).reverse.dropWhile pyWs).reverse

/-- Everything before the first occurrence of `c` (Python
`s.split(c, 1)[0]`). -/
def takeUntil (c : Char) (s : List Char) : List Char :=
  s.takeWhile (· ≠ c)

/-- Everything after the first occurrence of `'\n'` when there is one,
`[]` otherwise (`s.split('\n', 1)[1] if '\n' in s else ''`). -/
def afterFirstNl (s : List Char) : List Char :=
  if s.any (· = '\n') then (s.dropWhile (· ≠ '\n')).drop 1 else []

/-- Python `s.split(sep)` for a one-character separator. -/
def splitOnChar (sep : Char) : List Char → List (List Char)
  | [] => [[]]
  | c :: t =>
    if c = sep then [] :: splitOnChar sep t
    else
      match splitOnChar sep t with
      | h :: r => (c :: h) :: r
      | [] => [[c]]

/-- `re.split` on a class of separator characters. -/
def splitOnPredicate (sep : Char → Bool) : List Char → List (List Char)
  | [] => [[]]
  | c :: t =>
    if sep c then [] :: splitOnPredicate sep t
    else
      match splitOnPredicate sep t with
      | h :: r => (c :: h) :: r
      | [] => [[c]]

/-- Python `sep.join(parts)`. -/
def joinWith (sep : List Char) : List (List Char) → List Char
  | [] => []
  | [x] => x
  | x :: xs => x ++ sep ++ joinWith sep xs

/-- The literal triple-backtick fence. -/
def fence : List Char := chars "```"

/-- One step of `CODE_BLOCK_PATTERN`'s lazy body search: given the text
following the opening fence, language tag and newline of a block, find the earliest
position where `\n\s*` ++ three backticks matches (the regex
`(.*?)\n\s*` followed by the fence), and return the body together with the
text after the closing fence.  At a candidate newline, `\s*` is forced to
take the whole following whitespace run because a backtick is not
whitespace, so the search is deterministic. -/
def scanBody : List Char → Option (List Char × List Char)
  | [] => none
  | a :: ys =>
    if a = '\n' && leadsWith fence (ys.dropWhile pyWs) then
      some ([], (ys.dropWhile pyWs).drop 3)
    else
      match scanBody ys with
      | some (b, r) => some (a :: b, r)
      | none => none

/-- Fuel-driven scan for all non-overlapping matches of
`CODE_BLOCK_PATTERN` (` ```(\w*)\n(.*?)\n\s*``` `, `re.DOTALL`), the
pattern shared by `main.py` and `constants.py`; `langRequired` selects the
`constants.py` variant whose language group is `(\w+)`.  Mirrors
`finditer`: leftmost match, scanning resumes after each match, and a
failed opening fence advances by one character. -/
def findBlocksF (langRequired : Bool) : Nat → List Char → List (List Char × List Char)
  | 0, _ => []
  | _ + 1, [] => []
  | f + 1, x :: xs =>
    if leadsWith fence (x :: xs) then
      let afterF := (x :: xs).drop 3
      let lang := afterF.takeWhile wordChar
      if langRequired && lang.isEmpty then findBlocksF langRequired f xs
      else
        match afterF.dropWhile wordChar with
        | '\n' :: body0 =>
          match scanBody body0 with
          | some (b, r) => (lang, b) :: findBlocksF langRequired f r
          | none => findBlocksF langRequired f xs
        | _ => findBlocksF langRequired f xs
    else findBlocksF langRequired f xs

/-- All fenced blocks of a document, as (language, raw body) pairs. -/
def findBlocks (langRequired : Bool) (s : List Char) : List (List Char × List Char) :=
  findBlocksF langRequired s.length s

/-- Groups `([#|//|;]+)?` and `(\S+)` of `PATH_COMMENT_PATTERN` starting
at a position where `^\s*` and the optional `<!--\s*` prefix have already
been consumed.  Reproduces the backtracking of the concrete pattern: the
greedy class run shrinks by one when only whitespace follows it, so that
the mandatory `(\S+)` can still match. -/
def tryCD (t : List Char) : Option (Option (List Char) × List Char) :=
  let cls := t.takeWhile classChar
  if cls.isEmpty then
    let tok := (t.dropWhile pyWs).takeWhile (fun c => !pyWs c)
    if tok.isEmpty then none else some (none, tok)
  else
    let rest := t.drop cls.length
    let tok := (rest.dropWhile pyWs).takeWhile (fun c => !pyWs c)
    if !tok.isEmpty then some (some cls, tok)
    else if cls.length ≥ 2 then
      some (some (cls.take (cls.length - 1)), cls.drop (cls.length - 1))
    else
      some (none, cls)

/-- Full model of `PATH_COMMENT_PATTERN.match(first_line)` from `main.py`
(`^\s*(?:<!--\s*)?([#|//|;]+)?\s*(\S+)(?:\s*-->)?`): returns the comment
group and the path group.  The optional trailing `-->` group never binds
anything, so it is not modelled.  The match fails exactly when the line is
all whitespace. -/
def pathCommentMatch (s : List Char) : Option (Option (List Char) × List Char) :=
  let r := s.dropWhile pyWs
  if r.isEmpty then none
  else if leadsWith (chars "<!--") r then
    match tryCD ((r.drop 4).dropWhile pyWs) with
    | some res => some res
    | none => tryCD r
  else tryCD r

/-- The in-memory file record of `main.py` (`FileInfo` dataclass, minus
the UI back-reference). -/
structure FileInfo where
  rel : List Char
  content : List Char
  language : List Char
  comment : List Char
  deriving DecidableEq, Repr

/-- Python `dict` assignment `d[k] = v` materialised on an ordered list of
records keyed by `rel`: an existing key keeps its position and gets the
new value, a fresh key is appended. -/
def upsert : List FileInfo → FileInfo → List FileInfo
  | [], fi => [fi]
  | x :: xs, fi => if x.rel = fi.rel then fi :: xs else x :: upsert xs fi

/-- One block of `_parse_text_to_tree` (`main.py`): strip the body, match
the path-comment pattern on the first line, and build the record whose
content is everything after that first line.  The source applies
`.strip()` to group 2, which is the identity on a `\S+` token, so the
group is used directly. -/
def recordOfBlock (lb : List Char × List Char) : Option FileInfo :=
  let bc := pyStrip lb.2
  match pathCommentMatch (takeUntil '\n' bc) with
  | some (g1, g2) => some ⟨g2, afterFirstNl bc, lb.1, g1.getD []⟩
  | none => none

/-- `_parse_text_to_tree` (`main.py`): all fenced blocks (empty language
allowed), last occurrence of a path wins while keeping the position of
its first occurrence (Python dict insertion order). -/
def parseMain (doc : List Char) : List FileInfo :=
  ((findBlocks false doc).filterMap recordOfBlock).foldl upsert []

/-- The path-comment line emitted by `_regenerate_combined_text`
(`main.py`) for one record. -/
def commentLineOf (fi : FileInfo) : List Char :=
  if containsSeq (chars "<!--") fi.comment then
    chars "<!-- " ++ fi.rel ++ chars " -->" ++ ['\n']
  else if fi.comment.isEmpty then []
  else fi.comment ++ [' '] ++ fi.rel ++ ['\n']

/-- One serialized block of `_regenerate_combined_text` (`main.py`):
fence + language, path-comment line, stripped content, closing fence. -/
def blockOf (fi : FileInfo) : List Char :=
  fence ++ fi.language ++ ['\n'] ++ commentLineOf fi ++ pyStrip fi.content
    ++ ['\n'] ++ fence ++ ['\n']

/-- `_regenerate_combined_text` (`main.py`): blocks joined by a blank
line (`"\n".join(blocks)` where each block already ends in a newline). -/
def serializeMain (l : List FileInfo) : List Char :=
  joinWith ['\n'] (l.map blockOf)

/-- The unsafe-path test of `_task_reconstruction` (`main.py`): a `..`
path segment or a character of `INVALID_PATH_CHARS_PATTERN`. -/
def mainRecordUnsafe (rel : List Char) : Bool :=
  (splitOnChar '/' rel).any (· = chars "..") || rel.any invalidPathChar

/-- POSIX `os.path.join` for two components: an absolute second component
replaces the first. -/
def posixJoin (a b : List Char) : List Char :=
  if leadsWith ['/'] b then b
  else if a.isEmpty || a.getLast? = some '/' then a ++ b
  else a ++ ['/'] ++ b

/-- `_task_reconstruction` (`main.py`), with the filesystem modelled as
the list of (path, content) writes performed; I/O never fails in the
model, so the stats triple is (created, invalid_path) — the `error`
counter stays zero.  Unsafe records are skipped and counted; every other
record is written at `os.path.join(output_path, rel_path)`. -/
def mainReconstruct (out : List Char) (l : List FileInfo) :
    List (List Char × List Char) × Nat × Nat :=
  l.foldl
    (fun acc fi =>
      if mainRecordUnsafe fi.rel then (acc.1, acc.2.1, acc.2.2 + 1)
      else (acc.1 ++ [(posixJoin out fi.rel, fi.content)], acc.2.1 + 1, acc.2.2))
    ([], 0, 0)

/-- A path lies under an output root when it equals the root or extends
it past a separator. -/
def underRoot (root p : List Char) : Bool :=
  p = root || leadsWith (root ++ ['/']) p

/-- Python `content.replace('\r\n', '\n')` (left-to-right,
non-overlapping). -/
def replaceCrLf : List Char → List Char
  | [] => []
  | [c] => [c]
  | c :: d :: t =>
    if c = '\r' && d = '\n' then '\n' :: replaceCrLf t
    else c :: replaceCrLf (d :: t)

/-- Python `content.replace('\r', '\n')`. -/
def replaceCr : List Char → List Char
  | [] => []
  | c :: t => (if c = '\r' then '\n' else c) :: replaceCr t

/-- The newline normalisation of `reconstruct_from_content`
(`file_processor.py`): CRLF first, then lone CR. -/
def normNewlines (s : List Char) : List Char :=
  replaceCr (replaceCrLf s)

/-- Re-encode a document with CRLF line endings. -/
def crlfOf : List Char → List Char
  | [] => []
  | c :: t => if c = '\n' then '\r' :: '\n' :: crlfOf t else c :: crlfOf t

/-- Model of `FIRST_LINE_PATH_COMMENT_PATTERN.match(line)` from
`constants.py` (`^\s*#\s*(\S+)`), returning group 1.  The leading `\s*`
is greedy and the pattern fails unless a `#` follows the leading
whitespace and a non-space token follows the `#`. -/
def firstLineHashPath (s : List Char) : Option (List Char) :=
  match s.dropWhile pyWs with
  | '#' :: t =>
    let tok := (t.dropWhile pyWs).takeWhile (fun c => !pyWs c)
    if tok.isEmpty then none else some tok
  | _ => none

/-- Drop a leading run of characters satisfying `p` and a trailing run of
characters satisfying `q`. -/
def trimRuns (p q : Char → Bool) (s : List Char) : List Char :=
  ((s.dropWhile p).reverse.dropWhile q).reverse

/-- `_extract_path_from_comment` (`file_processor.py`): first line of the
block (stripped), hash-comment match, presence of a path-ish character,
then the cleanup `re.sub(r"^[*(]+|[)*]+$", "", p).strip('`')` and the
final emptiness / leading-`#` check. -/
def fpExtractPath (body : List Char) : Option (List Char) :=
  if body.isEmpty then none
  else
    match firstLineHashPath (pyStrip (takeUntil '\n' body)) with
    | none => none
    | some tok =>
      if tok.any (fun c => c = '/' || c = '\\' || c = '.' || c = '_' || c = '-') then
        let cleaned := trimRuns (fun c => c = '*' || c = '(') (fun c => c = ')' || c = '*') tok
        let cleaned2 := trimRuns (· = '`') (· = '`') cleaned
        if cleaned2.isEmpty || leadsWith ['#'] cleaned2 then none else some cleaned2
      else none

/-- Python `dict` assignment on the path-to-block-content map of
`_parse_content`. -/
def upsertKV : List (List Char × List Char) → List Char → List Char →
    List (List Char × List Char)
  | [], k, v => [(k, v)]
  | x :: xs, k, v => if x.1 = k then (k, v) :: xs else x :: upsertKV xs k v

/-- `_parse_content` (`file_processor.py`) on a POSIX system: nonempty
language tags, path extracted from the first line, invalid-character and
traversal checks (`os.path.isabs` is a leading `/`; `os.sep` is `/`),
and the stored value is the whole stripped block content, path comment
included. -/
def fpParseContent (doc : List Char) : List (List Char × List Char) :=
  (findBlocks true doc).foldl
    (fun m lb =>
      let bc := pyStrip lb.2
      match fpExtractPath bc with
      | none => m
      | some rel =>
        if rel.any invalidPathChar then m
        else if leadsWith ['/'] rel || (splitOnChar '/' rel).any (· = chars "..") then m
        else upsertKV m rel bc)
    []

/-- POSIX `os.path.normpath` on an absolute path: split on `/`, drop
empty and `.` segments, resolve `..` against the stack, re-prefix `/`. -/
def posixNormAbs (p : List Char) : List Char :=
  let parts := (splitOnChar '/' p).filter (fun q => !q.isEmpty && q ≠ chars ".")
  let stack := parts.foldl
    (fun st q => if q = chars ".." then st.dropLast else st ++ [q]) []
  ['/'] ++ joinWith ['/'] stack

/-- The per-record path cleaning of `reconstruct_from_content`
(`file_processor.py`): strip leading/trailing slashes and backslashes,
split on both separators, drop empty and `.` segments. -/
def fpPathParts (rel : List Char) : List (List Char) :=
  (splitOnPredicate (fun c => c = '/' || c = '\\')
      (trimRuns (fun c => c = '/' || c = '\\') (fun c => c = '/' || c = '\\') rel)).filter
    (fun p => !p.isEmpty && p ≠ chars ".")

/-- `reconstruct_from_content` (`file_processor.py`) with the filesystem
modelled as the performed writes: normalise newlines, parse, then for
each record clean the path, join below the (absolute, normalised) output
root, and keep it only when its normalised absolute form still starts
with the root.  Returns the writes and the error count; the written
content is the stored block content, path comment included. -/
def fpWrites (outRoot doc : List Char) : List (List Char × List Char) × Nat :=
  let root := posixNormAbs outRoot
  (fpParseContent (normNewlines doc)).foldl
    (fun acc kv =>
      let parts := fpPathParts kv.1
      if parts.isEmpty then (acc.1, acc.2 + 1)
      else
        let full := joinWith ['/'] (root :: parts)
        if leadsWith root (posixNormAbs full) then (acc.1 ++ [(full, kv.2)], acc.2)
        else (acc.1, acc.2 + 1))
    ([], 0)

/-- Shell-glob matcher of Python's `fnmatch.fnmatchcase` (`*`, `?`,
bracket expressions with ranges and `!` negation, full match), fuelled
for structural termination.  Matches characters inside a class body
against literal characters and `a-b` ranges. -/
def classBodyMatch : List Char → Char → Bool
  | a :: '-' :: b :: rest, c => (a ≤ c && c ≤ b) || classBodyMatch rest c
  | a :: rest, c => a = c || classBodyMatch rest c
  | [], _ => false

/-- Split a bracket expression after the optional `!`: Python's
`translate` lets a `]` in first position stand for itself, and treats an
unterminated `[` literally (signalled here by `none`). -/
def splitClassBody (t : List Char) : Option (List Char × List Char) :=
  match t with
  | ']' :: rest =>
    match rest.dropWhile (· ≠ ']') with
    | ']' :: after => some (']' :: rest.takeWhile (· ≠ ']'), after)
    | _ => none
  | _ =>
    match t.dropWhile (· ≠ ']') with
    | ']' :: after => some (t.takeWhile (· ≠ ']'), after)
    | _ => none

/-- Fuelled glob matcher: `globMatchF fuel pattern name`. -/
def globMatchF : Nat → List Char → List Char → Bool
  | 0, _, _ => false
  | _ + 1, [], s => s.isEmpty
  | f + 1, '*' :: p, s =>
    globMatchF f p s ||
      (match s with
       | [] => false
       | _ :: s' => globMatchF f ('*' :: p) s')
  | f + 1, '?' :: p, s =>
    match s with
    | [] => false
    | _ :: s' => globMatchF f p s'
  | f + 1, '[' :: p, s =>
    match splitClassBody (if leadsWith ['!'] p then p.drop 1 else p) with
    | some (body, after) =>
      (match s with
       | [] => false
       | c :: s' =>
         (if leadsWith ['!'] p then !classBodyMatch body c else classBodyMatch body c)
           && globMatchF f after s')
    | none =>
      match s with
      | '[' :: s' => globMatchF f p s'
      | _ => false
  | f + 1, a :: p, s =>
    match s with
    | [] => false
    | c :: s' => a = c && globMatchF f p s'

/-- `fnmatch.fnmatch(name, pat)` on POSIX (where `normcase` is the
identity). -/
def fnmatchB (name pat : List Char) : Bool :=
  globMatchF (pat.length + name.length + 1) pat name

/-- `os.path.basename` of a slash-separated relative path. -/
def basenameOf (rel : List Char) : List Char :=
  ((splitOnChar '/' rel).getLast?).getD []

/-- Whether a raw exclusion pattern is negated (`!` prefix),
`_is_excluded` (`main.py`). -/
def ruleNegate (pat : List Char) : Bool := leadsWith ['!'] pat

/-- The pattern with a `!` prefix removed. -/
def ruleBody (pat : List Char) : List Char :=
  if ruleNegate pat then pat.drop 1 else pat

/-- Whether the (un-negated) pattern ends in `/` (directory-only rule). -/
def ruleDirOnly (pat : List Char) : Bool :=
  (ruleBody pat).getLast? = some '/'

/-- The effective glob pattern: trailing slashes stripped
(Python `rstrip('/')`). -/
def rulePat (pat : List Char) : List Char :=
  if ruleDirOnly pat then (((ruleBody pat).reverse).dropWhile (· = '/')).reverse
  else ruleBody pat

/-- Whether one rule matches a candidate: directory-only rules only match
directories; a slash-free pattern is matched against the basename, a
pattern with a slash against the whole relative path. -/
def ruleMatches (rel : List Char) (isDir : Bool) (pat : List Char) : Bool :=
  if ruleDirOnly pat && !isDir then false
  else if (rulePat pat).any (· = '/') then fnmatchB rel (rulePat pat)
  else fnmatchB (basenameOf rel) (rulePat pat)

/-- One iteration of the rule loop in `_is_excluded` (`main.py`): a
matching rule overwrites the running verdict with `not negate`. -/
def stepExcluded (rel : List Char) (isDir : Bool) (exc : Bool) (pat : List Char) : Bool :=
  if ruleMatches rel isDir pat then !ruleNegate pat else exc

/-- `_is_excluded` (`main.py`): fold the rules in order over a `False`
verdict; the last matching rule wins. -/
def isExcluded (rel : List Char) (isDir : Bool) (pats : List (List Char)) : Bool :=
  pats.foldl (stepExcluded rel isDir) false

/-- `_parse_exclusions` (`main.py`): split the exclusion string on commas
and newlines, strip each piece, drop empties and `#` comments. -/
def parseExclusions (s : List Char) : List (List Char) :=
  ((splitOnPredicate (fun c => c = ',' || c = '\n') s).map pyStrip).filter
    (fun p => !p.isEmpty && !leadsWith ['#'] p)

/-- A source tree: files and directories with ordered children, the shape
`os.walk` traverses. -/
inductive FsEntry where
  | file (name : List Char)
  | dir (name : List Char) (children : List FsEntry)

/-- Join a relative prefix and a name with `/` (empty prefix at the
walk root). -/
def relJoin (pre name : List Char) : List Char :=
  if pre.isEmpty then name else pre ++ ['/'] ++ name

mutual

/-- The files of one directory level that survive `_is_excluded`, in
listing order — the `for name in files` part of `_gather_source_files`
(`main.py`). -/
def gatherFiles (pats : List (List Char)) (pre : List Char) :
    List FsEntry → List (List Char)
  | [] => []
  | .file n :: rest =>
    (if isExcluded (relJoin pre n) false pats then []
     else [relJoin pre n]) ++ gatherFiles pats pre rest
  | .dir _ _ :: rest => gatherFiles pats pre rest

/-- The recursive descent of `os.walk(topdown=True)` after the
`dirs[:] = [d for d in dirs if not excluded]` pruning: an excluded
directory contributes nothing, its subtree is never visited. -/
def gatherDirs (pats : List (List Char)) (pre : List Char) :
    List FsEntry → List (List Char)
  | [] => []
  | .file _ :: rest => gatherDirs pats pre rest
  | .dir n cs :: rest =>
    (if isExcluded (relJoin pre n) true pats then []
     else gatherFiles pats (relJoin pre n) cs ++ gatherDirs pats (relJoin pre n) cs)
      ++ gatherDirs pats pre rest

end

/-- `_gather_source_files` (`main.py`) on a modelled tree: the files of
the current directory, then the pruned recursive walk, as relative
slash-separated paths. -/
def gatherList (pats : List (List Char)) (pre : List Char) (es : List FsEntry) :
    List (List Char) :=
  gatherFiles pats pre es ++ gatherDirs pats pre es

/-- The block builder of `combine_files` (`file_processor.py`, the
preserve-existing-comment packing policy): if the file's first line is a
hash path comment whose path (backslashes normalised) equals the true
relative path, no comment is added; otherwise the correct comment line is
emitted above the unchanged file content. -/
def buildBlock (lang rel content : List Char) : List Char :=
  let firstLine := if content.isEmpty then [] else pyStrip (takeUntil '\n' content)
  let addComment :=
    match firstLineHashPath firstLine with
    | some p => !((p.map (fun c => if c = '\\' then '/' else c)) = rel)
    | none => true
  fence ++ lang ++ ['\n']
    ++ (if addComment then ['#', ' '] ++ rel ++ ['\n'] else [])
    ++ content
    ++ (if content.getLast? = some '\n' then [] else ['\n'])
    ++ fence ++ ['\n', '\n']

/-- First-occurrence de-duplication with an explicit seen set. -/
def dedupFirstAux (seen : List (List Char)) : List (List Char) → List (List Char)
  | [] => []
  | x :: xs =>
    if x ∈ seen then dedupFirstAux seen xs
    else x :: dedupFirstAux (x :: seen) xs

/-- First record with a given path in an ordered record list. -/
def getRec (m : List FileInfo) (p : List Char) : Option FileInfo :=
  m.find? (fun fi => fi.rel = p)

/-- The record of the spec's end-to-end example: `src/main.py` holding
`print(1)` plus newline, packed as python with a `#` comment. -/
def exampleRec : FileInfo :=
  ⟨chars "src/main.py", chars "print(1)\n", chars "python", chars "#"⟩

/-- A markup-comment record (html uses the bracketing comment style). -/
def markupRec : FileInfo :=
  ⟨chars "a.html", chars "x", chars "html", chars "<!--"⟩

/-- A document whose first and third blocks share the path `a.py`. -/
def dupDoc : List Char :=
  chars "```python\n# a.py\n1\n```\n\n```python\n# b.py\n2\n```\n\n```python\n# a.py\n3\n```\n"

/-- Every newline inside the text is eventually followed by a non-space
character: under this condition (and fence-freedom) the lazy body search
cannot close a block early inside the text. -/
def nlOkB : List Char → Bool
  | [] => true
  | c :: t => (if c = '\n' then t.any (fun x => !pyWs x) else true) && nlOkB t

/-- A text that a block body can safely contain: no backtick (hence no
fence) and no newline whose tail is all whitespace. -/
def okBody (u : List Char) : Bool :=
  u.all (fun c => c ≠ '\x60') && nlOkB u

/-- The path-comment line of a serialized block without its trailing
newline: markup records get the literal `<!-- path -->` wrapper, prefix
records `comment path`. -/
def commentCore (r : FileInfo) : List Char :=
  if containsSeq (chars "<!--") r.comment then chars "<!-- " ++ r.rel ++ chars " -->"
  else r.comment ++ [' '] ++ r.rel

/-- The body the block scanner recovers from a serialized block: the
comment line, and the stripped content after it when it is nonempty. -/
def bodyCore (r : FileInfo) : List Char :=
  if (pyStrip r.content).isEmpty then commentCore r
  else commentCore r ++ '\n' :: pyStrip r.content

/-- The extra whitespace the closing-fence search swallows: the blank
content line of a record whose stripped content is empty. -/
def wsTail (r : FileInfo) : List Char :=
  if (pyStrip r.content).isEmpty then ['\n'] else []

/-- The comment symbol the parser recovers: markup comments come back
empty (group 1 of the pattern never matches inside `<!-- ... -->`). -/
def csOf (r : FileInfo) : List Char :=
  if containsSeq (chars "<!--") r.comment then [] else r.comment

/-- The record `_parse_text_to_tree` recovers for a serialized record:
same path and language, stripped content, and `csOf` as comment. -/
def parsedRec (r : FileInfo) : FileInfo :=
  ⟨r.rel, pyStrip r.content, r.language, csOf r⟩

/-- Well-formedness of a record for the round-trip theorems: a
word-character language, a nonempty whitespace- and backtick-free path, a
backtick-free content, and a comment symbol that is either a nonempty run
of the comment characters `#`, `|`, `/`, `;` or a markup comment
containing `<!--` (with a path that does not start with a comment
character). -/
def WfRecB (r : FileInfo) : Bool :=
  r.language.all wordChar &&
  !r.rel.isEmpty && r.rel.all (fun c => !pyWs c && c ≠ '\x60') &&
  r.content.all (fun c => c ≠ '\x60') &&
  ((!r.comment.isEmpty && r.comment.all classChar) ||
   (containsSeq (chars "<!--") r.comment &&
     (match r.rel with
      | c :: _ => !classChar c
      | [] => false)))

/-- Stricter well-formedness for byte-level idempotence: the comment must
be a nonempty run of the prefix comment characters (markup comments do
not survive a parse round trip). -/
def WfRecP (r : FileInfo) : Bool :=
  WfRecB r && !r.comment.isEmpty && r.comment.all classChar

/-- Claim C1: a fenced block whose path comment is `/abs/path.py` slips
through both checks of `_task_reconstruction` (`main.py`) — neither a
`..` segment nor an invalid character — and `os.path.join` then discards
the output root, so the file is written at `/abs/path.py`, outside
`/tmp/out`, and counted as created rather than reported as an error.  The
`../escape.py` and `C:/abs/path.py` blocks are rejected by that function,
and the `file_processor.py` parser rejects all three. -/
theorem c1_abs_path_written_outside_root :
    parseMain (chars "```python\n# /abs/path.py\nX\n```\n") =
      [⟨chars "/abs/path.py", chars "X", chars "python", chars "#"⟩] ∧
    mainReconstruct (chars "/tmp/out")
        (parseMain (chars "```python\n# /abs/path.py\nX\n```\n")) =
      ([(chars "/abs/path.py", chars "X")], 1, 0) ∧
    underRoot (chars "/tmp/out") (chars "/abs/path.py") = false ∧
    mainReconstruct (chars "/tmp/out")
        (parseMain (chars "```python\n# ../escape.py\nX\n```\n")) = ([], 0, 1) ∧
    mainReconstruct (chars "/tmp/out")
        (parseMain (chars "```python\n# C:/abs/path.py\nX\n```\n")) = ([], 0, 1) ∧
    fpParseContent (chars "```python\n# ../escape.py\nX\n```\n\n```python\n# /abs/path.py\nX\n```\n\n```python\n# C:/abs/path.py\nX\n```\n") = [] := by
  decide

/-- Claim C2, counterexample: the example record has content
`print(1)\n`, a unique safe relative path, yet parsing its serialization
yields content `print(1)` — the serializer strips the content, so the
round-tripped collection does not have the same content. -/
theorem c2_roundtrip_content_not_preserved :
    (parseMain (serializeMain [exampleRec])).map (fun fi => fi.content) =
      [chars "print(1)"] ∧
    exampleRec.content = chars "print(1)\n" ∧
    chars "print(1)" ≠ chars "print(1)\n" := by
  decide

/-- Claim C3, counterexample: on the end-to-end example document the
main-window pipeline writes `src/main.py` with content `print(1)` — which
does not contain `print(1)\n` — and the `file_processor.py` reconstructor
writes the block content including the path-comment first line. -/
theorem c3_written_file_differs_from_claim :
    (mainReconstruct (chars "/tmp/out") (parseMain (serializeMain [exampleRec]))).1 =
      [(chars "/tmp/out/src/main.py", chars "print(1)")] ∧
    containsSeq (chars "print(1)\n") (chars "print(1)") = false ∧
    (fpWrites (chars "/tmp/out") (serializeMain [exampleRec])).1 =
      [(chars "/tmp/out/src/main.py", chars "# src/main.py\nprint(1)")] ∧
    containsSeq (chars "# src/main.py") (chars "# src/main.py\nprint(1)") = true := by
  decide

/-- Claim C3 as amended: in the main-window parser every accepted block's
record content is the stripped block body after its first line; on the
end-to-end example the main-window reconstruction writes `src/main.py`
with exactly `print(1)` (no trailing newline, path comment excluded),
while the `file_processor.py` reconstructor writes the block content with
the path-comment first line kept. -/
theorem c3_content_after_first_line :
    (∀ lb fi, recordOfBlock lb = some fi → fi.content = afterFirstNl (pyStrip lb.2)) ∧
    mainReconstruct (chars "/tmp/out") (parseMain (serializeMain [exampleRec])) =
      ([(chars "/tmp/out/src/main.py", chars "print(1)")], 1, 0) ∧
    fpWrites (chars "/tmp/out") (serializeMain [exampleRec]) =
      ([(chars "/tmp/out/src/main.py", chars "# src/main.py\nprint(1)")], 0) := by
  refine ⟨?_, by decide, by decide⟩
  intro lb fi h
  simp only [recordOfBlock] at h
  split at h
  · cases h
    rfl
  · cases h

/-- Witness for the general part of the amended claim C3, at the example
block. -/
theorem c3_content_after_first_line_witness :
    (⟨chars "src/main.py", chars "print(1)", chars "python", chars "#"⟩ : FileInfo).content =
      afterFirstNl (pyStrip (chars "# src/main.py\nprint(1)")) :=
  c3_content_after_first_line.1
    (chars "python", chars "# src/main.py\nprint(1)")
    ⟨chars "src/main.py", chars "print(1)", chars "python", chars "#"⟩
    (by decide)

/-- Claim C5, counterexample: a record with the markup comment symbol
`<!--` serializes to a block whose path line is `<!-- a.html -->`;
re-parsing that block yields an empty comment symbol, so the second
serialization omits the path line and is not byte-identical to the
first. -/
theorem c5_markup_comment_breaks_idempotence :
    serializeMain [markupRec] = chars "```html\n<!-- a.html -->\nx\n```\n" ∧
    serializeMain (parseMain (serializeMain [markupRec])) =
      chars "```html\nx\n```\n" ∧
    serializeMain (parseMain (serializeMain [markupRec])) ≠ serializeMain [markupRec] := by
  decide

/-- Claim C8, counterexample: `_parse_text_to_tree` (`main.py`) performs
no newline normalization; the CRLF re-encoding of a well-formed document
parses to no records at all, while the LF form parses to one. -/
theorem c8_main_parse_rejects_crlf :
    parseMain (crlfOf (chars "```python\n# a.py\nx\n```\n")) = [] ∧
    parseMain (chars "```python\n# a.py\nx\n```\n") =
      [⟨chars "a.py", chars "x", chars "python", chars "#"⟩] := by
  decide

/-- Claim C9, counterexample: packing a file whose first line is a path
comment for the wrong path keeps that incorrect line in the emitted block
(as the first line of the preserved content) in addition to the correct
comment added above it — the line is not replaced. -/
theorem c9_incorrect_comment_kept_in_block :
    buildBlock (chars "python") (chars "a.py") (chars "# wrong.py\nx") =
      chars "```python\n# a.py\n# wrong.py\nx\n```\n\n" ∧
    containsSeq (chars "# wrong.py")
      (buildBlock (chars "python") (chars "a.py") (chars "# wrong.py\nx")) = true := by
  decide

/-- Claim C9 as amended: when the file's first line encodes a different
path, `combine_files` emits the correct path comment as the first line of
the block and keeps the whole original content — including the incorrect
comment line — unchanged below it. -/
theorem c9_correct_comment_prepended (lang rel content p : List Char)
    (hm : firstLineHashPath (pyStrip (takeUntil '\n' content)) = some p)
    (hne : p.map (fun c => if c = '\\' then '/' else c) ≠ rel) :
    buildBlock lang rel content =
      fence ++ lang ++ ['\n'] ++ ['#', ' '] ++ rel ++ ['\n'] ++ content
        ++ (if content.getLast? = some '\n' then [] else ['\n'])
        ++ fence ++ ['\n', '\n'] := by
  have hcontent : content.isEmpty = false := by
    cases content with
    | nil => simp [takeUntil, pyStrip, firstLineHashPath] at hm
    | cons c t => rfl
  simp only [buildBlock, hcontent, Bool.false_eq_true, if_false, hm, hne,
    decide_eq_true_eq, ite_not, if_true]
  simp [hne]

/-- The rule loop of `_is_excluded` from any starting verdict is decided
by the last matching rule. -/
theorem foldl_stepExcluded_eq (rel : List Char) (isDir : Bool) :
    ∀ (pats : List (List Char)) (b : Bool),
      pats.foldl (stepExcluded rel isDir) b =
        ((pats.filter (ruleMatches rel isDir)).getLast?).elim b (fun p => !ruleNegate p) := by
  intro pats
  induction pats with
  | nil => intro b; rfl
  | cons p ps ih =>
    intro b
    simp only [List.foldl_cons, List.filter_cons]
    by_cases hm : ruleMatches rel isDir p
    · simp only [hm, if_true]
      rw [ih]
      cases hl : ps.filter (ruleMatches rel isDir) with
      | nil => simp [stepExcluded, hm]
      | cons q l =>
        cases hgl : (q :: l).getLast? with
        | none => simp at hgl
        | some x => simp [hgl]
    · simp only [hm, if_false]
      rw [ih]
      simp [stepExcluded, hm]

/-- Claim C6: with rules `*.log` then `!important.log`, `important.log`
is not excluded while `other.log` is, and in general `_is_excluded`
(`main.py`) equals the verdict `not negate` of the last matching rule
(false when no rule matches): each matching rule overwrites the running
verdict. -/
theorem c6_last_matching_rule_wins :
    isExcluded (chars "important.log") false
      [chars "*.log", chars "!important.log"] = false ∧
    isExcluded (chars "other.log") false
      [chars "*.log", chars "!important.log"] = true ∧
    ∀ (rel : List Char) (isDir : Bool) (pats : List (List Char)),
      isExcluded rel isDir pats =
        ((pats.filter (ruleMatches rel isDir)).getLast?).elim false
          (fun p => !ruleNegate p) :=
  ⟨by decide, by decide, fun rel isDir pats => foldl_stepExcluded_eq rel isDir pats false⟩

/-- Witness for the general part of claim C6 at a concrete rule list. -/
theorem c6_last_matching_rule_wins_witness :
    isExcluded (chars "x.log") false [chars "*.log"] =
      (([chars "*.log"].filter (ruleMatches (chars "x.log") false)).getLast?).elim false
        (fun p => !ruleNegate p) :=
  c6_last_matching_rule_wins.2.2 (chars "x.log") false [chars "*.log"]

/-- Claim C7: once a directory is excluded the walk of
`_gather_source_files` (`main.py`) prunes its whole subtree — for every
possible content of the excluded directory the gathered file list is the
one of the remaining tree, so no file below it is read or counted; on the
concrete tree `root/build/x.py` with rule `build/` nothing is gathered,
while without exclusions `build/x.py` is. -/
theorem c7_excluded_dir_subtree_pruned :
    (∀ (pats : List (List Char)) (pre n : List Char) (cs rest : List FsEntry),
        isExcluded (relJoin pre n) true pats = true →
        gatherList pats pre (.dir n cs :: rest) = gatherList pats pre rest) ∧
    gatherList [chars "build/"] [] [.dir (chars "build") [.file (chars "x.py")]] = [] ∧
    gatherList [] [] [.dir (chars "build") [.file (chars "x.py")]] =
      [chars "build/x.py"] := by
  refine ⟨?_, ?_, ?_⟩
  · intro pats pre n cs rest h
    simp [gatherList, gatherFiles, gatherDirs, h]
  · simp only [gatherList, gatherFiles, gatherDirs]
    decide
  · simp only [gatherList, gatherFiles, gatherDirs]
    decide

/-- Witness for the pruning part of claim C7: a `build` directory holding
an arbitrary other file contributes nothing to the walk. -/
theorem c7_excluded_dir_subtree_pruned_witness :
    gatherList [chars "build/"] []
        [FsEntry.dir (chars "build") [FsEntry.file (chars "secret.py")]] =
      gatherList [chars "build/"] [] [] :=
  c7_excluded_dir_subtree_pruned.1 [chars "build/"] [] (chars "build")
    [FsEntry.file (chars "secret.py")] [] (by decide)

/-- `replace('\r', '\n')` is the identity on CR-free text. -/
theorem replaceCr_no_cr : ∀ (s : List Char), '\r' ∉ s → replaceCr s = s
  | [], _ => rfl
  | c :: t, h => by
    have hc : c ≠ '\r' := fun e => h (e ▸ List.mem_cons_self c t)
    rw [replaceCr, if_neg hc, replaceCr_no_cr t fun m => h (List.mem_cons_of_mem c m)]

/-- `replace('\r\n', '\n')` is the identity on CR-free text. -/
theorem replaceCrLf_no_cr : ∀ (s : List Char), '\r' ∉ s → replaceCrLf s = s
  | [], _ => rfl
  | [_], _ => rfl
  | c :: d :: t, h => by
    have hc : c ≠ '\r' := fun e => h (e ▸ List.mem_cons_self c (d :: t))
    rw [replaceCrLf, if_neg (by simp [hc]),
      replaceCrLf_no_cr (d :: t) fun m => h (List.mem_cons_of_mem c m)]

/-- The CRLF re-encoding is empty only for the empty text. -/
theorem crlfOf_eq_nil {s : List Char} : crlfOf s = [] ↔ s = [] := by
  cases s with
  | nil => simp [crlfOf]
  | cons c t =>
    constructor
    · intro h
      rw [crlfOf] at h
      by_cases hc : c = '\n' <;> simp [hc] at h
    · intro h
      cases h

/-- Replacing CRLF by LF undoes the CRLF re-encoding of CR-free text. -/
theorem replaceCrLf_crlfOf : ∀ (s : List Char), '\r' ∉ s → replaceCrLf (crlfOf s) = s
  | [], _ => rfl
  | c :: t, h => by
    have ht : '\r' ∉ t := fun m => h (List.mem_cons_of_mem c m)
    by_cases hc : c = '\n'
    · subst hc
      rw [crlfOf, if_pos rfl, replaceCrLf, if_pos (by simp), replaceCrLf_crlfOf t ht]
    · have hcr : c ≠ '\r' := fun e => h (e ▸ List.mem_cons_self c t)
      rw [crlfOf, if_neg hc]
      cases hx : crlfOf t with
      | nil =>
        rw [replaceCrLf, crlfOf_eq_nil.mp hx]
      | cons d t' =>
        rw [replaceCrLf, if_neg (by simp [hcr]), ← hx, replaceCrLf_crlfOf t ht]

/-- Claim C8 as amended: the `file_processor.py` reconstruction pipeline
normalises CRLF and lone CR to `\n` before scanning, so a CR-free
document and its CRLF re-encoding parse to the same records and produce
the same writes there; the main-window parse (see the counterexample)
performs no such normalisation. -/
theorem c8_fp_normalizes_crlf (doc : List Char) (h : '\r' ∉ doc) :
    normNewlines (crlfOf doc) = doc ∧
    fpParseContent (normNewlines (crlfOf doc)) = fpParseContent (normNewlines doc) ∧
    ∀ outRoot, fpWrites outRoot (crlfOf doc) = fpWrites outRoot doc := by
  have h1 : normNewlines (crlfOf doc) = doc := by
    rw [normNewlines, replaceCrLf_crlfOf doc h, replaceCr_no_cr doc h]
  have h2 : normNewlines doc = doc := by
    rw [normNewlines, replaceCrLf_no_cr doc h, replaceCr_no_cr doc h]
  refine ⟨h1, by rw [h1, h2], ?_⟩
  intro outRoot
  simp only [fpWrites, h1, h2]

/-- Witness for the amended claim C8 at a concrete document. -/
theorem c8_fp_normalizes_crlf_witness :
    normNewlines (crlfOf (chars "```python\n# a.py\nx\n```\n")) =
      chars "```python\n# a.py\nx\n```\n" :=
  (c8_fp_normalizes_crlf (chars "```python\n# a.py\nx\n```\n") (by decide)).1

/-- Witness for the amended claim C9 at the concrete mispathed file. -/
theorem c9_correct_comment_prepended_witness :
    buildBlock (chars "python") (chars "a.py") (chars "# wrong.py\nx") =
      fence ++ chars "python" ++ ['\n'] ++ ['#', ' '] ++ chars "a.py" ++ ['\n']
        ++ chars "# wrong.py\nx"
        ++ (if (chars "# wrong.py\nx").getLast? = some '\n' then [] else ['\n'])
        ++ fence ++ ['\n', '\n'] :=
  c9_correct_comment_prepended (chars "python") (chars "a.py")
    (chars "# wrong.py\nx") (chars "wrong.py") (by decide) (by decide)

/-- Keys of an upsert: an update keeps the key list, an insert appends
the new key. -/
theorem upsert_keys (m : List FileInfo) (fi : FileInfo) :
    (upsert m fi).map (fun r => r.rel) =
      if fi.rel ∈ m.map (fun r => r.rel) then m.map (fun r => r.rel)
      else m.map (fun r => r.rel) ++ [fi.rel] := by
  induction m with
  | nil => simp [upsert]
  | cons x xs ih =>
    by_cases hx : x.rel = fi.rel
    · simp [upsert, hx]
    · simp only [upsert, if_neg hx, List.map_cons, List.mem_cons]
      rw [ih]
      by_cases hm : fi.rel ∈ xs.map (fun r => r.rel)
      · simp [hm]
      · have hne : ¬fi.rel = x.rel := fun h => hx h.symm
        simp [hm, hne]

/-- `dedupFirstAux` only depends on the membership of its seen set. -/
theorem dedupFirstAux_congr :
    ∀ (l : List (List Char)) (s1 s2 : List (List Char)),
      (∀ a, a ∈ s1 ↔ a ∈ s2) → dedupFirstAux s1 l = dedupFirstAux s2 l := by
  intro l
  induction l with
  | nil => intro _ _ _; rfl
  | cons x xs ih =>
    intro s1 s2 h
    simp only [dedupFirstAux]
    by_cases hx : x ∈ s1
    · rw [if_pos hx, if_pos ((h x).mp hx), ih s1 s2 h]
    · rw [if_neg hx, if_neg (fun m => hx ((h x).mpr m)),
        ih (x :: s1) (x :: s2) (by intro a; simp [h a])]

/-- The key list of a fold of upserts: the accumulator's keys followed by
the first occurrences of the new keys. -/
theorem foldl_upsert_keys :
    ∀ (l : List FileInfo) (acc : List FileInfo),
      (l.foldl upsert acc).map (fun r => r.rel) =
        acc.map (fun r => r.rel) ++
          dedupFirstAux (acc.map (fun r => r.rel)) (l.map (fun r => r.rel)) := by
  intro l
  induction l with
  | nil => intro acc; simp [dedupFirstAux]
  | cons fi l ih =>
    intro acc
    simp only [List.foldl_cons, List.map_cons, dedupFirstAux]
    rw [ih (upsert acc fi), upsert_keys]
    by_cases hm : fi.rel ∈ acc.map (fun r => r.rel)
    · rw [if_pos hm, if_pos hm]
    · rw [if_neg hm, if_neg hm,
        dedupFirstAux_congr (l.map (fun r => r.rel))
          (acc.map (fun r => r.rel) ++ [fi.rel]) (fi.rel :: acc.map (fun r => r.rel))
          (by intro a; simp [or_comm])]
      simp

/-- Looking a key up after an upsert: the upserted key maps to the new
record, every other key is untouched. -/
theorem getRec_upsert (m : List FileInfo) (fi : FileInfo) (p : List Char) :
    getRec (upsert m fi) p = if p = fi.rel then some fi else getRec m p := by
  induction m with
  | nil =>
    by_cases hp : p = fi.rel
    · simp [upsert, getRec, List.find?, hp]
    · have hp' : ¬fi.rel = p := fun h => hp h.symm
      simp [upsert, getRec, List.find?, hp, hp']
  | cons x xs ih =>
    by_cases hx : x.rel = fi.rel
    · rw [upsert, if_pos hx]
      by_cases hp : p = fi.rel
      · rw [if_pos hp, getRec, List.find?_cons_of_pos _ (by simp [hp.symm])]
      · have hp1 : ¬fi.rel = p := fun h => hp h.symm
        have hp2 : ¬x.rel = p := fun h => hp (by rw [← h, hx])
        rw [if_neg hp, getRec, List.find?_cons_of_neg _ (by simp [hp1]), getRec,
          List.find?_cons_of_neg _ (by simp [hp2])]
    · rw [upsert, if_neg hx]
      by_cases hxp : x.rel = p
      · have hp : ¬p = fi.rel := fun e => hx (by rw [hxp, e])
        rw [if_neg hp, getRec, List.find?_cons_of_pos _ (by simp [hxp]), getRec,
          List.find?_cons_of_pos _ (by simp [hxp])]
      · rw [getRec, List.find?_cons_of_neg _ (by simp [hxp])]
        show getRec (upsert xs fi) p = _
        rw [ih]
        by_cases hp : p = fi.rel
        · rw [if_pos hp, if_pos hp]
        · rw [if_neg hp, if_neg hp, getRec, getRec,
            List.find?_cons_of_neg _ (by simp [hxp])]

/-- Looking a key up after folding upserts: the last record with that key
wins; a key absent from the fold input falls back to the accumulator. -/
theorem getRec_foldl :
    ∀ (l : List FileInfo) (acc : List FileInfo) (p : List Char),
      getRec (l.foldl upsert acc) p =
        ((l.filter (fun r => r.rel = p)).getLast?).elim (getRec acc p) some := by
  intro l
  induction l with
  | nil => intro acc p; rfl
  | cons fi l ih =>
    intro acc p
    simp only [List.foldl_cons, List.filter_cons]
    rw [ih]
    by_cases hf : fi.rel = p
    · rw [decide_eq_true hf, if_pos rfl]
      cases hl : l.filter (fun r => r.rel = p) with
      | nil => simp [hl, getRec_upsert, hf.symm]
      | cons q t =>
        rw [List.getLast?_cons_cons]
        cases hgl : (q :: t).getLast? with
        | none => simp at hgl
        | some x => simp [hgl]
    · rw [decide_eq_false hf, if_neg (by simp)]
      have hf' : ¬p = fi.rel := fun e => hf e.symm
      cases hl : l.filter (fun r => r.rel = p) with
      | nil => simp [hl, getRec_upsert, hf']
      | cons q t =>
        cases hgl : (q :: t).getLast? with
        | none => simp at hgl
        | some x => simp [hgl]

/-- First-occurrence de-duplication produces keys that are new and
pairwise distinct. -/
theorem dedupFirstAux_nodup :
    ∀ (l : List (List Char)) (s : List (List Char)),
      (dedupFirstAux s l).Nodup ∧ ∀ x ∈ dedupFirstAux s l, x ∉ s := by
  intro l
  induction l with
  | nil => intro s; simp [dedupFirstAux]
  | cons x xs ih =>
    intro s
    simp only [dedupFirstAux]
    by_cases hx : x ∈ s
    · rw [if_pos hx]
      exact ih s
    · rw [if_neg hx]
      obtain ⟨hnd, hns⟩ := ih (x :: s)
      refine ⟨List.nodup_cons.mpr ⟨fun hm => (hns x hm) (List.mem_cons_self x s), hnd⟩, ?_⟩
      intro y hy
      rcases List.mem_cons.mp hy with h | h
      · exact h ▸ hx
      · exact fun hm => hns y h (List.mem_cons_of_mem x hm)

/-- In a record list with pairwise distinct keys, every member is found
by its own key. -/
theorem getRec_of_mem :
    ∀ (m : List FileInfo) (fi : FileInfo),
      fi ∈ m → (m.map (fun r => r.rel)).Nodup → getRec m fi.rel = some fi := by
  intro m
  induction m with
  | nil => intro fi h; cases h
  | cons x xs ih =>
    intro fi hm hn
    rcases List.mem_cons.mp hm with h | h
    · subst h
      simp [getRec, List.find?]
    · have hx : x.rel ∉ xs.map (fun r => r.rel) := (List.nodup_cons.mp hn).1
      have hne : x.rel ≠ fi.rel := fun e =>
        hx (e ▸ List.mem_map.mpr ⟨fi, h, rfl⟩)
      simp only [getRec, List.find?] at ih ⊢
      simp [hne, ih fi h (List.nodup_cons.mp hn).2]

/-- Claim C10: in `_parse_text_to_tree` (`main.py`) the parsed collection
lists each path at the position of its first occurrence among the
accepted blocks (all other records keeping document order), and every
surviving record is the last accepted block with its path. -/
theorem c10_first_position_last_content (doc : List Char) :
    (parseMain doc).map (fun fi => fi.rel) =
      dedupFirstAux []
        (((findBlocks false doc).filterMap recordOfBlock).map (fun fi => fi.rel)) ∧
    ∀ fi ∈ parseMain doc,
      (((findBlocks false doc).filterMap recordOfBlock).filter
        (fun r => r.rel = fi.rel)).getLast? = some fi := by
  constructor
  · have h := foldl_upsert_keys ((findBlocks false doc).filterMap recordOfBlock) []
    simpa [parseMain] using h
  · intro fi hfi
    have hn : ((parseMain doc).map (fun r => r.rel)).Nodup := by
      have h := foldl_upsert_keys ((findBlocks false doc).filterMap recordOfBlock) []
      simp only [parseMain] at hfi ⊢
      rw [h]
      simpa using (dedupFirstAux_nodup
        (((findBlocks false doc).filterMap recordOfBlock).map (fun r => r.rel)) []).1
    have hg : getRec (parseMain doc) fi.rel = some fi := getRec_of_mem _ fi hfi hn
    have h2 := getRec_foldl ((findBlocks false doc).filterMap recordOfBlock) [] fi.rel
    rw [parseMain, h2] at hg
    cases hl : (((findBlocks false doc).filterMap recordOfBlock).filter
        (fun r => r.rel = fi.rel)).getLast? with
    | none => rw [hl] at hg; simp [getRec, List.find?] at hg
    | some x => rw [hl] at hg; simpa using hg

/-- Witness for claim C10: on `dupDoc` the surviving `a.py` record sits
first (position of the first occurrence) and carries the last block's
content `3`. -/
theorem c10_first_position_last_content_witness :
    (parseMain dupDoc).map (fun fi => fi.rel) =
      dedupFirstAux []
        (((findBlocks false dupDoc).filterMap recordOfBlock).map (fun fi => fi.rel)) ∧
    (((findBlocks false dupDoc).filterMap recordOfBlock).filter
        (fun r => r.rel =
          (⟨chars "a.py", chars "3", chars "python", chars "#"⟩ : FileInfo).rel)).getLast? =
      some ⟨chars "a.py", chars "3", chars "python", chars "#"⟩ :=
  ⟨(c10_first_position_last_content dupDoc).1,
    (c10_first_position_last_content dupDoc).2
      ⟨chars "a.py", chars "3", chars "python", chars "#"⟩ (by decide)⟩

/-- No fuel or no input: no blocks. -/
theorem findBlocksF_nil (req : Bool) : ∀ f, findBlocksF req f [] = []
  | 0 => rfl
  | _ + 1 => rfl

/-- Dropping a prefix cannot lengthen a list. -/
theorem length_dropWhile_le (p : Char → Bool) :
    ∀ (l : List Char), (l.dropWhile p).length ≤ l.length := by
  intro l
  induction l with
  | nil => simp
  | cons a t ih =>
    rw [List.dropWhile_cons]
    by_cases hp : p a = true
    · rw [if_pos hp]
      simp only [List.length_cons]
      omega
    · rw [if_neg hp]

/-- A successful body scan consumes the closing newline and fence. -/
theorem scanBody_length :
    ∀ (xs b r : List Char), scanBody xs = some (b, r) → r.length + 4 ≤ xs.length := by
  intro xs
  induction xs with
  | nil => intro b r h; simp [scanBody] at h
  | cons a ys ih =>
    intro b r h
    rw [scanBody] at h
    by_cases hc : (a = '\n' && leadsWith fence (ys.dropWhile pyWs)) = true
    · rw [if_pos hc] at h
      cases h
      have h1 : ((ys.dropWhile pyWs).drop 3).length = (ys.dropWhile pyWs).length - 3 :=
        List.length_drop 3 _
      have h2 : (ys.dropWhile pyWs).length ≤ ys.length := length_dropWhile_le _ _
      have h3 : leadsWith fence (ys.dropWhile pyWs) = true := by
        simp only [Bool.and_eq_true] at hc
        exact hc.2
      have h4 : 3 ≤ (ys.dropWhile pyWs).length := by
        cases hd : ys.dropWhile pyWs with
        | nil => rw [hd] at h3; simp [fence, chars, leadsWith] at h3
        | cons e1 t1 =>
          cases t1 with
          | nil => rw [hd] at h3; simp [fence, chars, leadsWith] at h3
          | cons e2 t2 =>
            cases t2 with
            | nil => rw [hd] at h3; simp [fence, chars, leadsWith] at h3
            | cons e3 t3 => simp [hd]
      simp only [List.length_cons]
      omega
    · rw [if_neg hc] at h
      cases hsb : scanBody ys with
      | none => rw [hsb] at h; cases h
      | some br =>
        rw [hsb] at h
        obtain ⟨b', r'⟩ := br
        cases h
        have := ih b' r hsb
        simp only [List.length_cons]
        omega

/-- The block scan does not depend on the fuel once the fuel covers the
input length. -/
theorem findBlocksF_congr (req : Bool) :
    ∀ (n : Nat) (s : List Char), s.length ≤ n →
      ∀ (f g : Nat), s.length ≤ f → s.length ≤ g →
        findBlocksF req f s = findBlocksF req g s := by
  intro n
  induction n with
  | zero =>
    intro s hs f g _ _
    have : s = [] := List.eq_nil_of_length_eq_zero (Nat.le_zero.mp hs)
    subst this
    rw [findBlocksF_nil, findBlocksF_nil]
  | succ n ih =>
    intro s hs f g hf hg
    cases s with
    | nil => rw [findBlocksF_nil, findBlocksF_nil]
    | cons x xs =>
      simp only [List.length_cons] at hs hf hg
      cases f with
      | zero => omega
      | succ f' =>
        cases g with
        | zero => omega
        | succ g' =>
          have hxs : xs.length ≤ n := by omega
          have hxf : xs.length ≤ f' := by omega
          have hxg : xs.length ≤ g' := by omega
          simp only [findBlocksF]
          by_cases h1 : leadsWith fence (x :: xs) = true

          · rw [if_pos h1, if_pos h1]
            by_cases h2 : (req && ((x :: xs).drop 3 |>.takeWhile wordChar).isEmpty) = true
            · rw [if_pos h2, if_pos h2, ih xs hxs f' g' hxf hxg]
            · rw [if_neg h2, if_neg h2]
              split
              · rename_i body0 hdw
                split
                · rename_i b r hsb
                  have hlen : r.length + 4 ≤ body0.length := scanBody_length body0 b r hsb
                  have hb0 : body0.length ≤ xs.length := by
                    have hd3 : ((x :: xs).drop 3).length = xs.length - 2 := by
                      simp [List.length_drop]
                    have hdwl : (((x :: xs).drop 3).dropWhile wordChar).length ≤
                        ((x :: xs).drop 3).length := length_dropWhile_le _ _
                    rw [hdw] at hdwl
                    simp only [List.length_cons] at hdwl
                    omega
                  have hr1 : r.length ≤ n := by omega
                  have hr2 : r.length ≤ f' := by omega
                  have hr3 : r.length ≤ g' := by omega
                  rw [ih r hr1 f' g' hr2 hr3]
                · rw [ih xs hxs f' g' hxf hxg]
              · rw [ih xs hxs f' g' hxf hxg]
          · rw [if_neg h1, if_neg h1, ih xs hxs f' g' hxf hxg]

/-- The fence is three backticks. -/
theorem fence_eq : fence = ['\x60', '\x60', '\x60'] := rfl

/-- The markup comment opener as a character list. -/
theorem markup_eq : chars "<!--" = ['<', '!', '-', '-'] := rfl

/-- A list is a prefix of itself followed by anything. -/
theorem leadsWith_append_self : ∀ (a b : List Char), leadsWith a (a ++ b) = true := by
  intro a b
  induction a with
  | nil => rfl
  | cons c t ih => simp [leadsWith, ih]

/-- `takeWhile` keeps a list all whose elements satisfy the predicate. -/
theorem takeWhile_of_all (p : Char → Bool) :
    ∀ (l : List Char), l.all p = true → l.takeWhile p = l := by
  intro l
  induction l with
  | nil => intro _; rfl
  | cons a t ih =>
    intro h
    simp only [List.all_cons, Bool.and_eq_true] at h
    rw [List.takeWhile_cons, if_pos h.1, ih h.2]

/-- `dropWhile` consumes a fully satisfying prefix. -/
theorem dropWhile_all (p : Char → Bool) :
    ∀ (l z : List Char), l.all p = true → (l ++ z).dropWhile p = z.dropWhile p := by
  intro l
  induction l with
  | nil => intro z _; rfl
  | cons a t ih =>
    intro z h
    simp only [List.all_cons, Bool.and_eq_true] at h
    rw [List.cons_append, List.dropWhile_cons, if_pos h.1, ih z h.2]

/-- `dropWhile` keeps a list whose head fails the predicate. -/
theorem dropWhile_of_first_false (p : Char → Bool) (c : Char) (t : List Char)
    (hc : p c = false) : (c :: t).dropWhile p = c :: t := by
  rw [List.dropWhile_cons, if_neg (by rw [hc]; exact Bool.false_ne_true)]

/-- `takeWhile` over an all-satisfying prefix followed by a failing
element. -/
theorem takeWhile_append_cons (p : Char → Bool) :
    ∀ (l : List Char) (c : Char) (z : List Char),
      l.all p = true → p c = false → (l ++ c :: z).takeWhile p = l := by
  intro l
  induction l with
  | nil =>
    intro c z _ hc
    rw [List.nil_append, List.takeWhile_cons, if_neg (by rw [hc]; exact Bool.false_ne_true)]
  | cons a t ih =>
    intro c z h hc
    simp only [List.all_cons, Bool.and_eq_true] at h
    rw [List.cons_append, List.takeWhile_cons, if_pos h.1, ih c z h.2 hc]

/-- `dropWhile` over an all-satisfying prefix followed by a failing
element. -/
theorem dropWhile_append_cons (p : Char → Bool) :
    ∀ (l : List Char) (c : Char) (z : List Char),
      l.all p = true → p c = false → (l ++ c :: z).dropWhile p = c :: z := by
  intro l c z h hc
  rw [dropWhile_all p l (c :: z) h, dropWhile_of_first_false p c z hc]

/-- `dropWhile` stops inside a list holding a failing element. -/
theorem dropWhile_append_of_any (p : Char → Bool) :
    ∀ (l z : List Char), l.any (fun x => !p x) = true →
      (l ++ z).dropWhile p = l.dropWhile p ++ z := by
  intro l
  induction l with
  | nil => intro z h; simp at h
  | cons a t ih =>
    intro z h
    rw [List.cons_append, List.dropWhile_cons, List.dropWhile_cons]
    by_cases hp : p a = true
    · rw [if_pos hp, if_pos hp]
      apply ih
      simp only [List.any_cons, Bool.or_eq_true] at h
      rcases h with h | h
      · rw [hp] at h; simp at h
      · exact h
    · rw [if_neg hp, if_neg hp, List.cons_append]

/-- The head surviving `dropWhile` fails the predicate and belongs to the
list. -/
theorem dropWhile_head_mem (p : Char → Bool) :
    ∀ (l : List Char), l.any (fun x => !p x) = true →
      ∃ e d, l.dropWhile p = e :: d ∧ p e = false ∧ e ∈ l := by
  intro l
  induction l with
  | nil => intro h; simp at h
  | cons a t ih =>
    intro h
    by_cases hp : p a = true
    · have ht : t.any (fun x => !p x) = true := by
        simp only [List.any_cons, Bool.or_eq_true] at h
        rcases h with h | h
        · rw [hp] at h; simp at h
        · exact h
      obtain ⟨e, d, h1, h2, h3⟩ := ih ht
      exact ⟨e, d, by rw [List.dropWhile_cons, if_pos hp, h1],
        h2, List.mem_cons_of_mem a h3⟩
    · exact ⟨a, t, by rw [List.dropWhile_cons, if_neg hp],
        Bool.eq_false_iff.mpr hp, List.mem_cons_self a t⟩

/-- The body scanner recovers a well-formed body exactly: the earliest
closing position of `\n\s*` + fence after a fence-free, trailing-safe
body `u` is the explicit separator written after it. -/
theorem scanBody_wf :
    ∀ (u w v : List Char), okBody u = true → w.all pyWs = true →
      scanBody (u ++ '\n' :: (w ++ fence ++ v)) = some (u, v) := by
  intro u
  induction u with
  | nil =>
    intro w v _ hw
    show scanBody ('\n' :: (w ++ fence ++ v)) = some ([], v)
    rw [scanBody]
    have hdw : (w ++ fence ++ v).dropWhile pyWs = fence ++ v := by
      rw [List.append_assoc, dropWhile_all pyWs w (fence ++ v) hw]
      show List.dropWhile pyWs ('\x60' :: (['\x60', '\x60'] ++ v)) = fence ++ v
      rw [dropWhile_of_first_false pyWs _ _ (by decide)]
      rfl
    rw [if_pos (by rw [hdw]; simp [leadsWith_append_self])]
    rw [hdw, fence_eq]
    simp
  | cons c u' ih =>
    intro w v hok hw
    have hparts : (c = '\n' → u'.any (fun x => !pyWs x) = true) ∧
        u'.all (fun x => x ≠ '\x60') = true ∧ okBody u' = true := by
      simp only [okBody, nlOkB, List.all_cons, Bool.and_eq_true] at hok
      obtain ⟨⟨hc1, hall⟩, hif, hnl⟩ := hok
      refine ⟨fun hc => ?_, hall, by simp only [okBody, Bool.and_eq_true]; exact ⟨hall, hnl⟩⟩
      rw [if_pos hc] at hif
      exact hif
    show scanBody (c :: (u' ++ '\n' :: (w ++ fence ++ v))) = some (c :: u', v)
    rw [scanBody]
    have hcond : (c = '\n' &&
        leadsWith fence ((u' ++ '\n' :: (w ++ fence ++ v)).dropWhile pyWs)) = false := by
      by_cases hc : c = '\n'
      · have hex := hparts.1 hc
        obtain ⟨e, d, hdw, hpe, hmem⟩ := dropWhile_head_mem pyWs u' hex
        rw [dropWhile_append_of_any pyWs u' _ hex, hdw]
        have he : (e = '\x60') = False := by
          have := List.all_eq_true.mp hparts.2.1 e hmem
          simp only [decide_eq_true_eq] at this
          simp [this]
        rw [fence_eq]
        simp [leadsWith, he, Ne.symm]
      · simp [hc]
    rw [if_neg (by rw [hcond]; exact Bool.false_ne_true), ih w v hparts.2.2 hw]

/-- A leading newline can never open a fence, so the scanner skips it. -/
theorem findBlocks_cons_nl (req : Bool) (s : List Char) :
    findBlocks req ('\n' :: s) = findBlocks req s := by
  show findBlocksF req (('\n' :: s).length) ('\n' :: s) = findBlocksF req s.length s
  rw [List.length_cons]
  rw [findBlocksF, if_neg (by rw [fence_eq]; simp [leadsWith])]

/-- One well-formed serialized block at the head of the scan input is
consumed whole: the scanner returns its language and body and resumes on
the remaining newline-led text. -/
theorem findBlocksF_block (lang u w t : List Char) (f : Nat)
    (hlang : lang.all wordChar = true) (hu : okBody u = true) (hw : w.all pyWs = true) :
    findBlocksF false (f + 1)
        ('\x60' :: '\x60' :: '\x60' ::
          (lang ++ '\n' :: (u ++ '\n' :: (w ++ fence ++ '\n' :: t))))
      = (lang, u) :: findBlocksF false f ('\n' :: t) := by
  rw [findBlocksF]
  rw [if_pos (by rw [fence_eq]; simp [leadsWith])]
  simp only [List.drop_succ_cons, List.drop_zero, Bool.false_and, Bool.false_eq_true,
    if_false]
  rw [takeWhile_append_cons wordChar lang '\n' _ hlang (by decide),
    dropWhile_append_cons wordChar lang '\n' _ hlang (by decide)]
  have hsb := scanBody_wf u w ('\n' :: t) hu hw
  simp only [hsb]

/-- A serialized block followed by arbitrary text: the block scanner
returns one (language, body) pair for it and continues after the block's
trailing newline. -/
theorem findBlocks_block (lang u w t : List Char)
    (hlang : lang.all wordChar = true) (hu : okBody u = true) (hw : w.all pyWs = true) :
    findBlocks false (fence ++ lang ++ '\n' :: (u ++ '\n' :: (w ++ fence ++ '\n' :: t)))
      = (lang, u) :: findBlocks false t := by
  have hslen : (fence ++ lang ++ '\n' :: (u ++ '\n' :: (w ++ fence ++ '\n' :: t))).length
      = (lang.length + (u ++ '\n' :: (w ++ fence ++ '\n' :: t)).length + 3) + 1 := by
    simp [fence_eq]
    omega
  rw [findBlocks, hslen]
  show findBlocksF false _
      ('\x60' :: '\x60' :: '\x60' ::
        (lang ++ '\n' :: (u ++ '\n' :: (w ++ fence ++ '\n' :: t)))) = _
  rw [findBlocksF_block lang u w t _ hlang hu hw]
  congr 1
  have h1 : ('\n' :: t).length ≤
      lang.length + (u ++ '\n' :: (w ++ fence ++ '\n' :: t)).length + 3 := by
    simp [fence_eq]
    omega
  rw [findBlocksF_congr false (('\n' :: t).length) ('\n' :: t) le_rfl
      (lang.length + (u ++ '\n' :: (w ++ fence ++ '\n' :: t)).length + 3)
      (('\n' :: t).length) h1 le_rfl]
  exact findBlocks_cons_nl false t

/-- What survives `dropWhile` starts with a failing element. -/
theorem dropWhile_head_not (p : Char → Bool) :
    ∀ (l : List Char) (c : Char), (l.dropWhile p).head? = some c → p c = false := by
  intro l
  induction l with
  | nil => intro c h; cases h
  | cons a t ih =>
    intro c h
    rw [List.dropWhile_cons] at h
    by_cases hp : p a = true
    · rw [if_pos hp] at h
      exact ih c h
    · rw [if_neg hp] at h
      cases h
      exact Bool.eq_false_iff.mpr hp

/-- `dropWhile` keeps the last element when it keeps anything. -/
theorem getLast?_dropWhile (p : Char → Bool) :
    ∀ (l : List Char), l.dropWhile p ≠ [] → (l.dropWhile p).getLast? = l.getLast? := by
  intro l
  induction l with
  | nil => intro h; simp at h
  | cons a t ih =>
    intro h
    rw [List.dropWhile_cons] at h ⊢
    by_cases hp : p a = true
    · rw [if_pos hp] at h ⊢
      cases ht : t with
      | nil => rw [ht] at h; simp at h
      | cons b t' =>
        rw [← ht, ih h, ht, List.getLast?_cons_cons]
    · rw [if_neg hp]

/-- Membership survives `dropWhile` backwards. -/
theorem mem_of_dropWhile (p : Char → Bool) :
    ∀ (l : List Char) (x : Char), x ∈ l.dropWhile p → x ∈ l := by
  intro l
  induction l with
  | nil => intro x h; simp at h
  | cons a t ih =>
    intro x h
    rw [List.dropWhile_cons] at h
    by_cases hp : p a = true
    · rw [if_pos hp] at h
      exact List.mem_cons_of_mem a (ih x h)
    · rw [if_neg hp] at h
      exact h

/-- The strip of a text starts with a non-space character. -/
theorem pyStrip_head_ws (u : List Char) :
    ∀ c, (pyStrip u).head? = some c → pyWs c = false := by
  intro c h
  rw [pyStrip, List.head?_reverse] at h
  have hne : ((u.dropWhile pyWs).reverse).dropWhile pyWs ≠ [] := by
    intro he
    rw [he] at h
    cases h
  rw [getLast?_dropWhile pyWs _ hne, List.getLast?_reverse] at h
  exact dropWhile_head_not pyWs u c h

/-- The strip of a text ends with a non-space character. -/
theorem pyStrip_last_ws (u : List Char) :
    ∀ c, (pyStrip u).getLast? = some c → pyWs c = false := by
  intro c h
  rw [pyStrip, List.getLast?_reverse] at h
  exact dropWhile_head_not pyWs _ c h

/-- A text with non-space first and last characters strips to itself. -/
theorem pyStrip_eq_self (u : List Char)
    (h1 : ∀ c, u.head? = some c → pyWs c = false)
    (h2 : ∀ c, u.getLast? = some c → pyWs c = false) : pyStrip u = u := by
  cases u with
  | nil => rfl
  | cons a t =>
    have ha : pyWs a = false := h1 a rfl
    rw [pyStrip, dropWhile_of_first_false pyWs a t ha]
    have h3 : List.dropWhile pyWs ((a :: t).reverse) = (a :: t).reverse := by
      cases hr : (a :: t).reverse with
      | nil => rfl
      | cons d r' =>
        have hd : (a :: t).getLast? = some d := by
          rw [← List.head?_reverse, hr]
          rfl
        exact dropWhile_of_first_false pyWs d r' (h2 d hd)
    rw [h3, List.reverse_reverse]

/-- Stripping is idempotent. -/
theorem pyStrip_idem (u : List Char) : pyStrip (pyStrip u) = pyStrip u :=
  pyStrip_eq_self _ (pyStrip_head_ws u) (pyStrip_last_ws u)

/-- Stripped characters come from the original text. -/
theorem mem_pyStrip {x : Char} {u : List Char} (h : x ∈ pyStrip u) : x ∈ u := by
  rw [pyStrip, List.mem_reverse] at h
  exact mem_of_dropWhile pyWs u x
    (List.mem_reverse.mp (mem_of_dropWhile pyWs _ x h))

/-- The last element belongs to the list. -/
theorem getLast?_mem : ∀ (l : List Char) (c : Char), l.getLast? = some c → c ∈ l := by
  intro l
  induction l with
  | nil => intro c h; cases h
  | cons a t ih =>
    intro c h
    cases ht : t with
    | nil => rw [ht] at h; cases h; exact List.mem_cons_self a []
    | cons b t' =>
      rw [ht, List.getLast?_cons_cons] at h
      exact List.mem_cons_of_mem a (ht ▸ ih c (ht ▸ h))

/-- A text ending in a non-space character satisfies the newline
condition: every newline in it is followed by that last character. -/
theorem nlOkB_of_last :
    ∀ (u : List Char) (c : Char), u.getLast? = some c → pyWs c = false →
      nlOkB u = true := by
  intro u
  induction u with
  | nil => intro c h; cases h
  | cons a t ih =>
    intro c h hc
    cases ht : t with
    | nil =>
      rw [ht] at h
      cases h
      rw [nlOkB]
      have ha : ¬(a = '\n') := fun he => by rw [he] at hc; cases hc
      rw [if_neg ha]
      rfl
    | cons b t' =>
      rw [ht] at h
      rw [List.getLast?_cons_cons] at h
      have h2 : nlOkB (b :: t') = true := by
        have h3 := ih c (by rw [ht]; exact h) hc
        rwa [ht] at h3
      rw [nlOkB, h2, Bool.and_true]
      by_cases ha : a = '\n'
      · rw [if_pos ha, List.any_eq_true]
        exact ⟨c, getLast?_mem _ c h, by simp [hc]⟩
      · rw [if_neg ha]

/-- Last element of an append with a nonempty right part. -/
theorem getLast?_append_right :
    ∀ (a b : List Char), b ≠ [] → (a ++ b).getLast? = b.getLast? := by
  intro a
  induction a with
  | nil => intro b _; rfl
  | cons x a' ih =>
    intro b hb
    rw [List.cons_append]
    cases hab : a' ++ b with
    | nil =>
      rcases List.append_eq_nil.mp hab with ⟨-, h2⟩
      exact absurd h2 hb
    | cons y t =>
      rw [List.getLast?_cons_cons, ← hab]
      exact ih b hb

/-- Head of an append with a nonempty left part. -/
theorem head?_append_left :
    ∀ (a b : List Char), a ≠ [] → (a ++ b).head? = a.head? := by
  intro a b ha
  cases a with
  | nil => exact absurd rfl ha
  | cons x a' => rfl

/-- A run of comment characters contains no markup opener. -/
theorem not_containsSeq_markup :
    ∀ (cs : List Char), (∀ c ∈ cs, classChar c = true) →
      containsSeq (chars "<!--") cs = false := by
  intro cs
  induction cs with
  | nil => intro _; rfl
  | cons a t ih =>
    intro h
    have ha : classChar a = true := h a (List.mem_cons_self a t)
    have hne : ('<' = a) = False := by
      simp only [classChar, Bool.or_eq_true, decide_eq_true_eq] at ha
      rcases ha with ((rfl | rfl) | rfl) | rfl <;> simp
    rw [containsSeq, markup_eq]
    simp only [leadsWith, hne]
    simp only [decide_False, Bool.false_and, Bool.false_or]
    rw [← markup_eq]
    exact ih fun c hc => h c (List.mem_cons_of_mem a hc)

/-- Properties of the four comment characters. -/
theorem classChar_props (c : Char) (h : classChar c = true) :
    pyWs c = false ∧ c ≠ '\x60' ∧ c ≠ '\n' ∧ c ≠ '<' := by
  simp only [classChar, Bool.or_eq_true, decide_eq_true_eq] at h
  rcases h with ((rfl | rfl) | rfl) | rfl <;> exact ⟨rfl, by decide, by decide, by decide⟩

/-- Unpacked form of record well-formedness. -/
theorem wfRec_unpack (r : FileInfo) (h : WfRecB r = true) :
    r.language.all wordChar = true ∧
    r.rel ≠ [] ∧
    (∀ c ∈ r.rel, pyWs c = false ∧ c ≠ '\x60') ∧
    (∀ c ∈ r.content, c ≠ '\x60') ∧
    ((r.comment ≠ [] ∧ (∀ c ∈ r.comment, classChar c = true) ∧
        containsSeq (chars "<!--") r.comment = false) ∨
      (containsSeq (chars "<!--") r.comment = true ∧
        ∀ c t, r.rel = c :: t → classChar c = false)) := by
  simp only [WfRecB, Bool.and_eq_true, Bool.or_eq_true] at h
  obtain ⟨⟨⟨⟨hlang, hrel⟩, hrelall⟩, hcont⟩, hcmt⟩ := h
  refine ⟨hlang, ?_, ?_, ?_, ?_⟩
  · intro he
    rw [he] at hrel
    cases hrel
  · intro c hc
    have := List.all_eq_true.mp hrelall c hc
    simp only [Bool.and_eq_true, Bool.not_eq_true', decide_eq_true_eq] at this
    exact this
  · intro c hc
    have := List.all_eq_true.mp hcont c hc
    simpa using this
  · rcases hcmt with ⟨hne, hall⟩ | ⟨hm, hmatch⟩
    · have hall' : ∀ c ∈ r.comment, classChar c = true := fun c hc =>
        List.all_eq_true.mp hall c hc
      refine Or.inl ⟨?_, hall', not_containsSeq_markup r.comment hall'⟩
      intro he
      rw [he] at hne
      cases hne
    · refine Or.inr ⟨hm, ?_⟩
      intro c t hct
      rw [hct] at hmatch
      simpa using hmatch

/-- Non-space characters are not newlines. -/
theorem ne_nl_of_not_ws {c : Char} (h : pyWs c = false) : c ≠ '\n' := by
  intro he
  rw [he] at h
  cases h

/-- The comment line core has no backtick or newline, starts and ends
with non-space characters, and is nonempty. -/
theorem commentCore_facts (r : FileInfo) (h : WfRecB r = true) :
    (∀ c ∈ commentCore r, c ≠ '\x60' ∧ c ≠ '\n') ∧
    (∀ c, (commentCore r).head? = some c → pyWs c = false) ∧
    (∀ c, (commentCore r).getLast? = some c → pyWs c = false) ∧
    commentCore r ≠ [] := by
  obtain ⟨hlang, hrelne, hrelall, hcont, hcmt⟩ := wfRec_unpack r h
  rcases hcmt with ⟨hcne, hcall, hcnm⟩ | ⟨hcm, hhead⟩
  · rw [commentCore, if_neg (by rw [hcnm]; exact Bool.false_ne_true)]
    obtain ⟨c0, cs', hcs⟩ := List.exists_cons_of_ne_nil hcne
    obtain ⟨r0, rel', hrel⟩ := List.exists_cons_of_ne_nil hrelne
    refine ⟨?_, ?_, ?_, ?_⟩
    · intro c hc
      rcases List.mem_append.mp hc with hc | hc
      · rcases List.mem_append.mp hc with hc | hc
        · have hp := classChar_props c (hcall c hc)
          exact ⟨hp.2.1, hp.2.2.1⟩
        · rcases List.mem_cons.mp hc with rfl | hc
          · exact ⟨by decide, by decide⟩
          · simp at hc
      · have hp := hrelall c hc
        exact ⟨hp.2, ne_nl_of_not_ws hp.1⟩
    · intro c hc
      rw [head?_append_left _ _ (by simp [hcs]), head?_append_left _ _ hcne, hcs] at hc
      cases hc
      exact (classChar_props c0 (hcall c0 (hcs ▸ List.mem_cons_self c0 cs'))).1
    · intro c hc
      rw [getLast?_append_right _ _ hrelne] at hc
      exact (hrelall c (getLast?_mem _ c hc)).1
    · rw [hcs]
      simp
  · rw [commentCore, if_pos hcm]
    refine ⟨?_, ?_, ?_, ?_⟩
    · intro c hc
      rcases List.mem_append.mp hc with hc | hc
      · rcases List.mem_append.mp hc with hc | hc
        · rw [show chars "<!-- " = ['<', '!', '-', '-', ' '] from rfl] at hc
          simp only [List.mem_cons, List.not_mem_nil, or_false] at hc
          rcases hc with rfl | rfl | rfl | rfl | rfl <;> exact ⟨by decide, by decide⟩
        · have hp := hrelall c hc
          exact ⟨hp.2, ne_nl_of_not_ws hp.1⟩
      · rw [show chars " -->" = [' ', '-', '-', '>'] from rfl] at hc
        simp only [List.mem_cons, List.not_mem_nil, or_false] at hc
        rcases hc with rfl | rfl | rfl | rfl <;> exact ⟨by decide, by decide⟩
    · intro c hc
      have hne1 : chars "<!-- " ++ r.rel ≠ [] := by
        intro he
        rcases List.append_eq_nil.mp he with ⟨h1, -⟩
        exact absurd h1 (by decide)
      rw [head?_append_left _ _ hne1, head?_append_left _ _ (by decide)] at hc
      cases hc
      rfl
    · intro c hc
      rw [getLast?_append_right _ _ (by decide)] at hc
      rw [show (chars " -->").getLast? = some '>' from rfl] at hc
      cases hc
      rfl
    · simp
      intro h1
      exact absurd h1 (by decide)

/-- A nonempty list has a last element. -/
theorem exists_getLast? (l : List Char) (h : l ≠ []) : ∃ c, l.getLast? = some c := by
  cases hl : l.getLast? with
  | none => exact absurd (List.getLast?_eq_none_iff.mp hl) h
  | some c => exact ⟨c, rfl⟩

/-- The body of a well-formed serialized block is safe for the scanner. -/
theorem bodyCore_ok (r : FileInfo) (h : WfRecB r = true) : okBody (bodyCore r) = true := by
  obtain ⟨hmem, hhead, hlast, hne⟩ := commentCore_facts r h
  obtain ⟨-, -, -, hcont, -⟩ := wfRec_unpack r h
  rw [okBody, Bool.and_eq_true]
  by_cases hS : (pyStrip r.content).isEmpty = true
  · rw [bodyCore, if_pos hS]
    obtain ⟨c, hc⟩ := exists_getLast? _ hne
    refine ⟨List.all_eq_true.mpr fun c' hc' => by simp [(hmem c' hc').1], ?_⟩
    exact nlOkB_of_last _ c hc (hlast c hc)
  · rw [bodyCore, if_neg hS]
    have hSne : pyStrip r.content ≠ [] := by
      intro he
      rw [he] at hS
      exact hS rfl
    constructor
    · refine List.all_eq_true.mpr fun c' hc' => ?_
      rcases List.mem_append.mp hc' with hc' | hc'
      · simp [(hmem c' hc').1]
      · rcases List.mem_cons.mp hc' with rfl | hc'
        · decide
        · simp [hcont c' (mem_pyStrip hc')]
    · obtain ⟨c, hc⟩ := exists_getLast? _ hSne
      have hlast2 : (commentCore r ++ '\n' :: pyStrip r.content).getLast? = some c := by
        rw [getLast?_append_right _ _ (by simp)]
        obtain ⟨s0, s', hs⟩ := List.exists_cons_of_ne_nil hSne
        rw [hs, List.getLast?_cons_cons, ← hs]
        exact hc
      exact nlOkB_of_last _ c hlast2 (pyStrip_last_ws _ c hc)

/-- The body of a well-formed serialized block strips to itself. -/
theorem bodyCore_strip (r : FileInfo) (h : WfRecB r = true) :
    pyStrip (bodyCore r) = bodyCore r := by
  obtain ⟨hmem, hhead, hlast, hne⟩ := commentCore_facts r h
  by_cases hS : (pyStrip r.content).isEmpty = true
  · rw [bodyCore, if_pos hS]
    exact pyStrip_eq_self _ hhead hlast
  · rw [bodyCore, if_neg hS]
    have hSne : pyStrip r.content ≠ [] := by
      intro he
      rw [he] at hS
      exact hS rfl
    refine pyStrip_eq_self _ ?_ ?_
    · intro c hc
      rw [head?_append_left _ _ hne] at hc
      exact hhead c hc
    · intro c hc
      rw [getLast?_append_right _ _ (by simp)] at hc
      obtain ⟨s0, s', hs⟩ := List.exists_cons_of_ne_nil hSne
      rw [hs, List.getLast?_cons_cons, ← hs] at hc
      exact pyStrip_last_ws _ c hc

/-- The first line of the body is exactly the comment core. -/
theorem bodyCore_firstLine (r : FileInfo) (h : WfRecB r = true) :
    takeUntil '\n' (bodyCore r) = commentCore r := by
  obtain ⟨hmem, hhead, hlast, hne⟩ := commentCore_facts r h
  have hall : (commentCore r).all (fun c => decide (c ≠ '\n')) = true :=
    List.all_eq_true.mpr fun c hc => by simp [(hmem c hc).2]
  by_cases hS : (pyStrip r.content).isEmpty = true
  · rw [bodyCore, if_pos hS, takeUntil, takeWhile_of_all _ _ hall]
  · rw [bodyCore, if_neg hS, takeUntil,
      takeWhile_append_cons _ _ _ _ hall (by simp)]

/-- Everything after the body's first line is the stripped content. -/
theorem bodyCore_after (r : FileInfo) (h : WfRecB r = true) :
    afterFirstNl (bodyCore r) = pyStrip r.content := by
  obtain ⟨hmem, hhead, hlast, hne⟩ := commentCore_facts r h
  by_cases hS : (pyStrip r.content).isEmpty = true
  · rw [bodyCore, if_pos hS, afterFirstNl, if_neg, List.isEmpty_iff.mp hS]
    intro hany
    obtain ⟨c, hc, he⟩ := List.any_eq_true.mp hany
    rw [decide_eq_true_eq] at he
    exact (hmem c hc).2 he
  · rw [bodyCore, if_neg hS, afterFirstNl, if_pos, dropWhile_append_cons _ _ _ _
      (List.all_eq_true.mpr fun c hc => by simp [(hmem c hc).2]) (by simp),
      List.drop_succ_cons, List.drop_zero]
    rw [List.any_eq_true]
    exact ⟨'\n', List.mem_append.mpr (Or.inr (List.mem_cons_self _ _)), by simp⟩

/-- `PATH_COMMENT_PATTERN` on a prefix-style serialized comment line:
group 1 is the comment run, group 2 the path. -/
theorem pathCommentMatch_prefixLine (cs rel : List Char)
    (hcs : cs ≠ []) (hcsall : ∀ c ∈ cs, classChar c = true)
    (hrel : rel ≠ []) (hrelws : ∀ c ∈ rel, pyWs c = false) :
    pathCommentMatch (cs ++ [' '] ++ rel) = some (some cs, rel) := by
  obtain ⟨c0, cs', rfl⟩ := List.exists_cons_of_ne_nil hcs
  obtain ⟨r0, rel', rfl⟩ := List.exists_cons_of_ne_nil hrel
  have hp0 := classChar_props c0 (hcsall c0 (List.mem_cons_self _ _))
  have hpr := hrelws r0 (List.mem_cons_self _ _)
  rw [List.append_assoc, List.singleton_append, List.cons_append]
  simp only [pathCommentMatch]
  rw [dropWhile_of_first_false pyWs _ _ hp0.1]
  have hlw : leadsWith (chars "<!--") (c0 :: (cs' ++ ' ' :: r0 :: rel')) = false := by
    rw [markup_eq]
    simp [leadsWith, Ne.symm hp0.2.2.2]
  rw [hlw]
  simp only [List.isEmpty_cons, Bool.false_eq_true, if_false]
  simp only [tryCD]
  have hcls : List.takeWhile classChar (c0 :: (cs' ++ ' ' :: r0 :: rel')) = c0 :: cs' := by
    rw [← List.cons_append]
    exact takeWhile_append_cons classChar (c0 :: cs') ' ' (r0 :: rel')
      (List.all_eq_true.mpr hcsall) (by decide)
  rw [hcls]
  have hdrop : List.drop (c0 :: cs').length (c0 :: (cs' ++ ' ' :: r0 :: rel')) =
      ' ' :: r0 :: rel' := by
    rw [← List.cons_append]
    exact List.drop_left _ _
  rw [hdrop]
  have hdw2 : List.dropWhile pyWs (' ' :: r0 :: rel') = r0 :: rel' := by
    rw [List.dropWhile_cons, if_pos (by decide), dropWhile_of_first_false pyWs _ _ hpr]
  rw [hdw2]
  have htk : List.takeWhile (fun c => !pyWs c) (r0 :: rel') = r0 :: rel' :=
    takeWhile_of_all _ _ (List.all_eq_true.mpr fun c hc => by simp [hrelws c hc])
  rw [htk]
  simp

/-- `PATH_COMMENT_PATTERN` on a markup-style serialized comment line:
group 1 stays empty, group 2 is the path. -/
theorem pathCommentMatch_markupLine (rel : List Char)
    (hrel : rel ≠ []) (hrelws : ∀ c ∈ rel, pyWs c = false)
    (hhead : ∀ c t, rel = c :: t → classChar c = false) :
    pathCommentMatch (chars "<!-- " ++ rel ++ chars " -->") = some (none, rel) := by
  obtain ⟨r0, rel', rfl⟩ := List.exists_cons_of_ne_nil hrel
  have hpr := hrelws r0 (List.mem_cons_self _ _)
  have hcl := hhead r0 rel' rfl
  show pathCommentMatch
      ('<' :: '!' :: '-' :: '-' :: ' ' :: ((r0 :: rel') ++ chars " -->")) = _
  simp only [pathCommentMatch]
  rw [dropWhile_of_first_false pyWs _ _ (by decide)]
  have hlw : leadsWith (chars "<!--")
      ('<' :: '!' :: '-' :: '-' :: ' ' :: ((r0 :: rel') ++ chars " -->")) = true := by
    rw [markup_eq]
    simp [leadsWith]
  rw [hlw]
  simp only [List.isEmpty_cons, Bool.false_eq_true, if_false, if_true]
  have hdrop : ('<' :: '!' :: '-' :: '-' :: ' ' ::
      ((r0 :: rel') ++ chars " -->")).drop 4 = ' ' :: ((r0 :: rel') ++ chars " -->") := rfl
  rw [hdrop]
  have hdw2 : List.dropWhile pyWs (' ' :: ((r0 :: rel') ++ chars " -->")) =
      (r0 :: rel') ++ chars " -->" := by
    rw [List.dropWhile_cons, if_pos (by decide), List.cons_append,
      dropWhile_of_first_false pyWs _ _ hpr]
  rw [hdw2]
  simp only [tryCD]
  have hcls : List.takeWhile classChar ((r0 :: rel') ++ chars " -->") = [] := by
    rw [List.cons_append, List.takeWhile_cons, if_neg (by rw [hcl]; exact Bool.false_ne_true)]
  rw [hcls]
  have hdw3 : List.dropWhile pyWs ((r0 :: rel') ++ chars " -->") =
      (r0 :: rel') ++ chars " -->" := by
    rw [List.cons_append, dropWhile_of_first_false pyWs _ _ hpr]
  rw [hdw3]
  have htk : List.takeWhile (fun c => !pyWs c) ((r0 :: rel') ++ chars " -->") =
      r0 :: rel' := by
    show List.takeWhile (fun c => !pyWs c) ((r0 :: rel') ++ ' ' :: chars "-->") = r0 :: rel'
    exact takeWhile_append_cons _ (r0 :: rel') ' ' (chars "-->")
      (List.all_eq_true.mpr fun c hc => by simp [hrelws c hc]) (by decide)
  rw [htk]
  simp

/-- `_parse_text_to_tree` turns the body of a well-formed serialized
block into exactly the parsed record. -/
theorem recordOfBlock_bodyCore (r : FileInfo) (h : WfRecB r = true) :
    recordOfBlock (r.language, bodyCore r) = some (parsedRec r) := by
  obtain ⟨hlang, hrelne, hrelall, hcont, hcmt⟩ := wfRec_unpack r h
  simp only [recordOfBlock]
  rw [bodyCore_strip r h, bodyCore_firstLine r h, bodyCore_after r h]
  rcases hcmt with ⟨hcne, hcall, hcnm⟩ | ⟨hcm, hhead⟩
  · rw [commentCore, if_neg (by rw [hcnm]; exact Bool.false_ne_true)]
    rw [pathCommentMatch_prefixLine r.comment r.rel hcne hcall hrelne
      (fun c hc => (hrelall c hc).1)]
    simp [parsedRec, csOf, hcnm]
  · rw [commentCore, if_pos hcm]
    rw [pathCommentMatch_markupLine r.rel hrelne (fun c hc => (hrelall c hc).1) hhead]
    simp [parsedRec, csOf, hcm]

/-- The serialized comment line is the comment core plus a newline. -/
theorem commentLineOf_eq (r : FileInfo) (h : WfRecB r = true) :
    commentLineOf r = commentCore r ++ ['\n'] := by
  obtain ⟨-, -, -, -, hcmt⟩ := wfRec_unpack r h
  rcases hcmt with ⟨hcne, -, hcnm⟩ | ⟨hcm, -⟩
  · rw [commentLineOf, if_neg (by rw [hcnm]; exact Bool.false_ne_true),
      if_neg (by simp [hcne]), commentCore,
      if_neg (by rw [hcnm]; exact Bool.false_ne_true)]
  · rw [commentLineOf, if_pos hcm, commentCore, if_pos hcm]

/-- A serialized block followed by any text, in the scanner's shape. -/
theorem blockOf_append (r : FileInfo) (h : WfRecB r = true) (t : List Char) :
    blockOf r ++ t =
      fence ++ r.language ++ '\n' ::
        (bodyCore r ++ '\n' :: (wsTail r ++ fence ++ '\n' :: t)) := by
  by_cases hS : (pyStrip r.content).isEmpty = true
  · rw [blockOf, commentLineOf_eq r h, bodyCore, if_pos hS, wsTail, if_pos hS,
      List.isEmpty_iff.mp hS]
    simp
  · rw [blockOf, commentLineOf_eq r h, bodyCore, if_neg hS, wsTail, if_neg hS]
    simp

/-- The blank line swallowed for empty contents is whitespace. -/
theorem wsTail_ws (r : FileInfo) : (wsTail r).all pyWs = true := by
  rw [wsTail]
  by_cases hS : (pyStrip r.content).isEmpty = true
  · rw [if_pos hS]
    decide
  · rw [if_neg hS]
    decide

/-- Unfolding the join on a two-or-more element list. -/
theorem joinWith_cons_cons (sep x y : List Char) (xs : List (List Char)) :
    joinWith sep (x :: y :: xs) = x ++ sep ++ joinWith sep (y :: xs) := rfl

/-- The scanner recovers exactly one (language, body) pair per serialized
well-formed record, in order. -/
theorem findBlocks_serializeMain :
    ∀ (rs : List FileInfo), rs.all WfRecB = true →
      findBlocks false (serializeMain rs) = rs.map (fun r => (r.language, bodyCore r)) := by
  intro rs
  induction rs with
  | nil => intro _; rfl
  | cons r rs ih =>
    intro h
    simp only [List.all_cons, Bool.and_eq_true] at h
    have hlang : r.language.all wordChar = true := (wfRec_unpack r h.1).1
    cases rs with
    | nil =>
      have hser : serializeMain [r] = blockOf r := rfl
      rw [hser, ← List.append_nil (blockOf r), blockOf_append r h.1 [],
        findBlocks_block r.language (bodyCore r) (wsTail r) [] hlang
          (bodyCore_ok r h.1) (wsTail_ws r)]
      rfl
    | cons r2 rs2 =>
      have hser : serializeMain (r :: r2 :: rs2) =
          blockOf r ++ '\n' :: serializeMain (r2 :: rs2) := by
        show joinWith ['\n'] (blockOf r :: blockOf r2 :: List.map blockOf rs2) = _
        rw [joinWith_cons_cons]
        simp only [List.append_assoc, List.singleton_append]
        rfl
      rw [hser, blockOf_append r h.1 ('\n' :: serializeMain (r2 :: rs2)),
        findBlocks_block r.language (bodyCore r) (wsTail r)
          ('\n' :: serializeMain (r2 :: rs2)) hlang (bodyCore_ok r h.1) (wsTail_ws r),
        findBlocks_cons_nl, ih h.2]
      rfl

/-- Upserting a fresh key appends. -/
theorem upsert_append_of_not_mem :
    ∀ (acc : List FileInfo) (fi : FileInfo),
      fi.rel ∉ acc.map (fun r => r.rel) → upsert acc fi = acc ++ [fi] := by
  intro acc
  induction acc with
  | nil => intro fi _; rfl
  | cons x xs ih =>
    intro fi h
    simp only [List.map_cons, List.mem_cons] at h
    push_neg at h
    rw [upsert, if_neg (fun he => h.1 he.symm), ih fi h.2, List.cons_append]

/-- Folding upserts of records with pairwise fresh keys just appends
them. -/
theorem foldl_upsert_fresh :
    ∀ (l acc : List FileInfo),
      (acc.map (fun r => r.rel) ++ l.map (fun r => r.rel)).Nodup →
      l.foldl upsert acc = acc ++ l := by
  intro l
  induction l with
  | nil => intro acc _; simp
  | cons fi l ih =>
    intro acc h
    simp only [List.foldl_cons]
    have hparts := List.nodup_append.mp (by simpa using h)
    have hmem : fi.rel ∉ acc.map (fun r => r.rel) := by
      intro hm
      exact hparts.2.2 hm (List.mem_cons_self _ _)
    rw [upsert_append_of_not_mem acc fi hmem, ih (acc ++ [fi]) ?_, List.append_assoc]
    · rfl
    · simp only [List.map_append, List.map_cons, List.map_nil]
      rw [List.append_assoc]
      simpa using h

/-- Pointwise total `filterMap` is a `map`. -/
theorem filterMap_eq_map_of (f : FileInfo → Option FileInfo) (g : FileInfo → FileInfo) :
    ∀ (l : List FileInfo), (∀ x ∈ l, f x = some (g x)) → l.filterMap f = l.map g := by
  intro l
  induction l with
  | nil => intro _; rfl
  | cons x xs ih =>
    intro h
    rw [List.filterMap_cons, h x (List.mem_cons_self _ _), List.map_cons,
      ih fun y hy => h y (List.mem_cons_of_mem x hy)]

/-- Parsing the serialization of well-formed records with distinct paths
yields exactly the parsed records, in order. -/
theorem parseMain_serializeMain (rs : List FileInfo)
    (hwf : rs.all WfRecB = true) (hnd : (rs.map (fun r => r.rel)).Nodup) :
    parseMain (serializeMain rs) = rs.map parsedRec := by
  rw [parseMain, findBlocks_serializeMain rs hwf, List.filterMap_map]
  rw [filterMap_eq_map_of (recordOfBlock ∘ fun r => (r.language, bodyCore r)) parsedRec rs
    (fun x hx => recordOfBlock_bodyCore x (List.all_eq_true.mp hwf x hx))]
  have hnd2 : (([] : List FileInfo).map (fun r => r.rel) ++
      (rs.map parsedRec).map (fun r => r.rel)).Nodup := by
    simp only [List.map_nil, List.nil_append, List.map_map]
    have : ((fun r => r.rel) ∘ parsedRec) = fun r => r.rel := rfl
    rw [this]
    exact hnd
  rw [foldl_upsert_fresh (rs.map parsedRec) [] hnd2, List.nil_append]

/-- Claim C2 as amended: the round trip preserves paths and languages in
order, and returns each content stripped of leading/trailing whitespace
(the serializer emits `content.strip()`). -/
theorem c2_roundtrip_paths_langs_stripped_content (rs : List FileInfo)
    (hwf : rs.all WfRecB = true) (hnd : (rs.map (fun r => r.rel)).Nodup) :
    (parseMain (serializeMain rs)).map (fun fi => (fi.rel, fi.content, fi.language)) =
      rs.map (fun r => (r.rel, pyStrip r.content, r.language)) := by
  rw [parseMain_serializeMain rs hwf hnd, List.map_map]
  rfl

/-- Witness for the amended claim C2 on a two-record collection. -/
theorem c2_roundtrip_witness :
    (parseMain (serializeMain
        [⟨chars "src/main.py", chars "print(1)\n", chars "python", chars "#"⟩,
         ⟨chars "a/b.js", chars "let x = 1\n", chars "javascript", chars "//"⟩])).map
        (fun fi => (fi.rel, fi.content, fi.language)) =
      ([⟨chars "src/main.py", chars "print(1)\n", chars "python", chars "#"⟩,
        ⟨chars "a/b.js", chars "let x = 1\n", chars "javascript", chars "//"⟩] :
          List FileInfo).map (fun r => (r.rel, pyStrip r.content, r.language)) :=
  c2_roundtrip_paths_langs_stripped_content
    [⟨chars "src/main.py", chars "print(1)\n", chars "python", chars "#"⟩,
     ⟨chars "a/b.js", chars "let x = 1\n", chars "javascript", chars "//"⟩]
    (by decide) (by decide)

/-- Claim C4: a document of two serialized blocks sharing one relative
path (with different contents) parses to exactly one record for that
path, carrying the second (later) block's content. -/
theorem c4_duplicate_path_last_block_wins (r1 r2 : FileInfo)
    (h1 : WfRecB r1 = true) (h2 : WfRecB r2 = true)
    (heq : r1.rel = r2.rel) (_hne : r1.content ≠ r2.content) :
    parseMain (serializeMain [r1, r2]) = [parsedRec r2] := by
  rw [parseMain, findBlocks_serializeMain [r1, r2] (by simp [h1, h2])]
  simp only [List.map_cons, List.map_nil, List.filterMap_cons,
    recordOfBlock_bodyCore r1 h1, recordOfBlock_bodyCore r2 h2, List.filterMap_nil]
  simp only [List.foldl_cons, List.foldl_nil]
  show upsert (upsert [] (parsedRec r1)) (parsedRec r2) = [parsedRec r2]
  rw [show upsert [] (parsedRec r1) = [parsedRec r1] from rfl, upsert,
    if_pos (show (parsedRec r1).rel = (parsedRec r2).rel from heq)]

/-- Witness for claim C4 at the spec's `a/b.py` example. -/
theorem c4_duplicate_path_last_block_wins_witness :
    parseMain (serializeMain
        [⟨chars "a/b.py", chars "1", chars "python", chars "#"⟩,
         ⟨chars "a/b.py", chars "2", chars "python", chars "#"⟩]) =
      [parsedRec ⟨chars "a/b.py", chars "2", chars "python", chars "#"⟩] :=
  c4_duplicate_path_last_block_wins
    ⟨chars "a/b.py", chars "1", chars "python", chars "#"⟩
    ⟨chars "a/b.py", chars "2", chars "python", chars "#"⟩
    (by decide) (by decide) (by decide) (by decide)

/-- A prefix-comment record re-serializes identically after a parse. -/
theorem blockOf_parsedRec (r : FileInfo) (h : WfRecP r = true) :
    blockOf (parsedRec r) = blockOf r := by
  simp only [WfRecP, Bool.and_eq_true] at h
  have hall : ∀ c ∈ r.comment, classChar c = true := fun c hc =>
    List.all_eq_true.mp h.2 c hc
  have hnm : containsSeq (chars "<!--") r.comment = false :=
    not_containsSeq_markup r.comment hall
  have hcs : csOf r = r.comment := by
    rw [csOf, if_neg (by rw [hnm]; exact Bool.false_ne_true)]
  rw [blockOf, blockOf]
  have h1 : commentLineOf (parsedRec r) = commentLineOf r := by
    rw [commentLineOf, commentLineOf]
    simp only [parsedRec, hcs]
  rw [h1]
  simp only [parsedRec, pyStrip_idem]

/-- Claim C5 as amended: for stably ordered records with prefix-style
comment symbols, serialize-parse-serialize is byte-identical to the first
serialization. -/
theorem c5_serialize_parse_serialize_idempotent (rs : List FileInfo)
    (hwf : rs.all WfRecP = true) (hnd : (rs.map (fun r => r.rel)).Nodup) :
    serializeMain (parseMain (serializeMain rs)) = serializeMain rs := by
  have hwfB : rs.all WfRecB = true := by
    rw [List.all_eq_true] at hwf ⊢
    intro x hx
    have := hwf x hx
    simp only [WfRecP, Bool.and_eq_true] at this
    exact this.1.1
  rw [parseMain_serializeMain rs hwfB hnd, serializeMain, serializeMain, List.map_map]
  congr 1
  exact List.map_congr_left fun r hr =>
    blockOf_parsedRec r (List.all_eq_true.mp hwf r hr)

/-- Witness for the amended claim C5 on a two-record collection. -/
theorem c5_idempotence_witness :
    serializeMain (parseMain (serializeMain
        [⟨chars "src/main.py", chars "print(1)\n", chars "python", chars "#"⟩,
         ⟨chars "a/b.js", chars "let x = 1\n", chars "javascript", chars "//"⟩])) =
      serializeMain
        [⟨chars "src/main.py", chars "print(1)\n", chars "python", chars "#"⟩,
         ⟨chars "a/b.js", chars "let x = 1\n", chars "javascript", chars "//"⟩] :=
  c5_serialize_parse_serialize_idempotent
    [⟨chars "src/main.py", chars "print(1)\n", chars "python", chars "#"⟩,
     ⟨chars "a/b.js", chars "let x = 1\n", chars "javascript", chars "//"⟩]
    (by decide) (by decide)

end PFER
